import Mathlib

/-!
# Dining philosophers (`main.go`)

A shallow embedding of the Go program: the `State` enumeration, `Fork` with its
mutex, `Philosopher` with its state field and fork pair, the body of `cycle`
cut into its individual actions, and the five forks and five philosophers that
`main` builds.  Goroutines are interleaved one action at a time.
-/

namespace Philosophers

/-! ## Data model -/

/-- The `State` enumeration (`Thinking = iota`, `Eating`, `Finished`). -/
inductive State where
  | Thinking
  | Eating
  | Finished
  deriving DecidableEq, Repr

/-- A `Fork`: its label `fnum` and its `sync.Mutex`, of which only the locked
bit matters (`true` = locked).  A Go mutex records no owner. -/
structure Fork where
  fnum : String
  mu : Bool
  deriving DecidableEq, Repr

/-- `Fork.pickup`: `f.mu.Lock()` then `return f.fnum`.  `none` when the mutex
is locked, in which case the caller waits. -/
def Fork.pickup (f : Fork) : Option (Fork × String) :=
  if f.mu then none else some ({ f with mu := true }, f.fnum)

/-- `Fork.putdown`: `f.mu.Unlock()` then `return f.fnum`.  `none` when the
mutex is not locked, which the Go runtime turns into a fatal error. -/
def Fork.putdown (f : Fork) : Option (Fork × String) :=
  if f.mu then some ({ f with mu := false }, f.fnum) else none

/-- Control points of a goroutine running `cycle`: the head of the `for` loop
(where `switch p.state` is evaluated), the two iterations of each
`range p.forks` loop, the two assignments to `p.state`, and the point after
`return`. -/
inductive Loc where
  | head
  | pickup0
  | pickup1
  | setEating
  | putdown0
  | putdown1
  | setFinished
  | returned
  deriving DecidableEq, Repr

/-- A `Philosopher` together with the control point of the goroutine that runs
its `cycle`.  `forks` holds the two `*Fork` pointers as positions in the
`forks` slice of `main`, in array order (`forks.1` is `p.forks[0]`). -/
structure Philosopher where
  name : String
  state : State
  forks : Nat × Nat
  loc : Loc
  deriving DecidableEq, Repr

/-- The observable actions, one constructor per `Printf`/`Println` of the
program; a fork operation and the `Printf` that reports it are one action.
`i` is the position of the philosopher in the `philosophers` slice and `f` the
position of the fork in the `forks` slice. -/
inductive Event where
  | thinking (i : Nat)
  | pickedUp (i f : Nat)
  | eating (i : Nat)
  | putDown (i f : Nat)
  | full (i : Nat)
  | allFull
  deriving DecidableEq, Repr

/-- The whole program state: the forks, the philosophers (with their
goroutines), the counter of the `sync.WaitGroup`, and the actions performed so
far in the order performed (standard output). -/
structure Sys where
  forks : List Fork
  philosophers : List Philosopher
  wg : Nat
  out : List Event
  deriving DecidableEq, Repr

/-- Result of letting one goroutine take its next action: the new state; or
the goroutine waits in `Lock`; or the runtime stops the program (`Unlock` of an
unlocked mutex, `wg.Done()` on a counter of zero, or a fork pointer that points
nowhere); or the goroutine has returned from `cycle` (or was never
started). -/
inductive Outcome where
  | ok (s : Sys)
  | blocked
  | fatal
  | exited
  deriving DecidableEq, Repr

/-! ## `cycle`, one action at a time -/

/-- One iteration of `for _, f := range p.forks { Printf(..., f.pickup()) }`
on fork `f`, continuing at `next`. -/
def pickupStep (s : Sys) (i : Nat) (p : Philosopher) (f : Nat) (next : Loc) : Outcome :=
  match s.forks[f]? with
  | none => .fatal
  | some fk =>
    match fk.pickup with
    | none => .blocked
    | some (fk', _) =>
      .ok { s with
        forks := s.forks.set f fk'
        philosophers := s.philosophers.set i { p with loc := next }
        out := s.out ++ [Event.pickedUp i f] }

/-- One iteration of `for _, f := range p.forks { Printf(..., f.putdown()) }`
on fork `f`, continuing at `next`. -/
def putdownStep (s : Sys) (i : Nat) (p : Philosopher) (f : Nat) (next : Loc) : Outcome :=
  match s.forks[f]? with
  | none => .fatal
  | some fk =>
    match fk.putdown with
    | none => .fatal
    | some (fk', _) =>
      .ok { s with
        forks := s.forks.set f fk'
        philosophers := s.philosophers.set i { p with loc := next }
        out := s.out ++ [Event.putDown i f] }

/-- The next action of the goroutine of philosopher `i` in `cycle`.  On
`return` the deferred `wg.Done()` runs: it decrements the counter, and panics
("negative WaitGroup counter") when the counter is already zero. -/
def step (s : Sys) (i : Nat) : Outcome :=
  match s.philosophers[i]? with
  | none => .exited
  | some p =>
    match p.loc with
    | .head =>
      match p.state with
      | .Thinking =>
        .ok { s with
          philosophers := s.philosophers.set i { p with loc := .pickup0 }
          out := s.out ++ [Event.thinking i] }
      | .Eating =>
        .ok { s with
          philosophers := s.philosophers.set i { p with loc := .putdown0 }
          out := s.out ++ [Event.eating i] }
      | .Finished =>
        if s.wg = 0 then .fatal
        else
          .ok { s with
            philosophers := s.philosophers.set i { p with loc := .returned }
            wg := s.wg - 1
            out := s.out ++ [Event.full i] }
    | .pickup0 => pickupStep s i p p.forks.1 .pickup1
    | .pickup1 => pickupStep s i p p.forks.2 .setEating
    | .setEating =>
      .ok { s with
        philosophers := s.philosophers.set i { p with state := .Eating, loc := .head } }
    | .putdown0 => putdownStep s i p p.forks.1 .putdown1
    | .putdown1 => putdownStep s i p p.forks.2 .setFinished
    | .setFinished =>
      .ok { s with
        philosophers := s.philosophers.set i { p with state := .Finished, loc := .head } }
    | .returned => .exited

/-- Runs a schedule: the list of goroutines that take the successive actions.
`none` if some scheduled goroutine cannot act. -/
def run (s : Sys) : List Nat → Option Sys
  | [] => some s
  | i :: rest =>
    match step s i with
    | .ok s' => run s' rest
    | _ => none

/-- Value of `p.state` that the `switch` reads, when goroutine `i` is at the
head of the loop. -/
def switchValue (s : Sys) (i : Nat) : List State :=
  match s.philosophers[i]? with
  | some p => if p.loc = .head then [p.state] else []
  | none => []

/-- The goroutine of philosopher `i` run on its own until `cycle` returns.
Gives the final state and the values of `p.state` read by the `switch`, one
per execution of the loop body; `none` if it would wait, crash, or needs more
than `fuel` actions. -/
def cycle : Nat → Sys → Nat → Option (Sys × List State)
  | 0, _, _ => none
  | fuel + 1, s, i =>
    match step s i with
    | .ok s' =>
      match cycle fuel s' i with
      | some (t, seen) => some (t, switchValue s i ++ seen)
      | none => none
    | .exited =>
      match s.philosophers[i]? with
      | some _ => some (s, [])
      | none => none
    | .blocked => none
    | .fatal => none

/-! ## `main` -/

/-- The `forks` slice of `main`; a fresh mutex is unlocked. -/
def mainForks : List Fork :=
  [⟨"1", false⟩, ⟨"2", false⟩, ⟨"3", false⟩, ⟨"4", false⟩, ⟨"5", false⟩]

/-- A philosopher literal: `state` is left at its zero value `Thinking`, and
its goroutine starts at the head of the loop. -/
def newPhilosopher (name : String) (f0 f1 : Nat) : Philosopher :=
  { name := name, state := .Thinking, forks := (f0, f1), loc := .head }

/-- The `philosophers` slice of `main`. -/
def mainPhilosophers : List Philosopher :=
  [ newPhilosopher "Carolina" 4 0,
    newPhilosopher "Guadalupe" 0 1,
    newPhilosopher "Api" 1 2,
    newPhilosopher "Gonza" 2 3,
    newPhilosopher "Lean" 3 4 ]

/-- The state once `main` has run `wg.Add(1); go p.cycle(&wg)` for every
philosopher and no goroutine has acted yet. -/
def mainSys : Sys :=
  { forks := mainForks
    philosophers := mainPhilosophers
    wg := mainPhilosophers.length
    out := [] }

/-- The end of `main`: `wg.Wait()` returns once the counter is zero, then the
last line is printed. -/
def mainFinish (s : Sys) : Option Sys :=
  if s.wg = 0 then some { s with out := s.out ++ [Event.allFull] } else none

/-- The schedule that runs the five philosophers one after another, each for
the nine actions of a complete `cycle`. -/
def sequentialSchedule : List Nat :=
  List.replicate 9 0 ++ List.replicate 9 1 ++ List.replicate 9 2 ++
    List.replicate 9 3 ++ List.replicate 9 4

/-- Modelled from the spec: the philosophers of the regression scenario, which
`main.go` does not build: five actors `A0..A4` of which actor `i`, the
wrap-around one included, has fork `i` first and fork `(i + 1) mod 5`
second. -/
def ascendingPhilosophers : List Philosopher :=
  [ newPhilosopher "A0" 0 1,
    newPhilosopher "A1" 1 2,
    newPhilosopher "A2" 2 3,
    newPhilosopher "A3" 3 4,
    newPhilosopher "A4" 4 0 ]

/-- Modelled from the spec: the program state of the regression scenario, the
five forks of `main` with the philosophers above, all goroutines launched and
none having acted yet. -/
def ascendingSys : Sys :=
  { forks := mainForks
    philosophers := ascendingPhilosophers
    wg := ascendingPhilosophers.length
    out := [] }

/-! ## Observations on a run -/

/-- The philosopher that printed a line, if any. -/
def Event.owner : Event → Option Nat
  | .thinking i => some i
  | .pickedUp i _ => some i
  | .eating i => some i
  | .putDown i _ => some i
  | .full i => some i
  | .allFull => none

/-- Lines printed by philosopher `i`. -/
def ownedBy (i : Nat) (e : Event) : Bool := e.owner == some i

/-- Philosopher `i` holds fork `f`: it has completed more `pickup` calls on `f`
than `putdown` calls. -/
def holds (s : Sys) (i f : Nat) : Bool :=
  decide (s.out.count (Event.putDown i f) < s.out.count (Event.pickedUp i f))

/-- The mutex of fork `f` is locked. -/
def locked (s : Sys) (f : Nat) : Bool :=
  match s.forks[f]? with
  | some fk => fk.mu
  | none => false

/-- A `pickup` line. -/
def Event.isPickup : Event → Bool
  | .pickedUp _ _ => true
  | _ => false

/-- A `putdown` line. -/
def Event.isPutdown : Event → Bool
  | .putDown _ _ => true
  | _ => false

/-- A line about fork `f`. -/
def Event.onFork (f : Nat) : Event → Bool
  | .pickedUp _ g => g == f
  | .putDown _ g => g == f
  | _ => false

/-- The fork operations of philosopher `i`, in the order performed. -/
def forkOps (s : Sys) (i : Nat) : List Event :=
  s.out.filter (fun e => ownedBy i e && (e.isPickup || e.isPutdown))

/-- The status lines of philosopher `i`, in the order printed. -/
def statusLines (s : Sys) (i : Nat) : List Event :=
  s.out.filter (fun e => ownedBy i e && !(e.isPickup || e.isPutdown))

/-- Every philosopher's state field is `Finished`. -/
def allFinished (s : Sys) : Bool :=
  s.philosophers.all (fun p => p.state == State.Finished)

/-- Some goroutine can take a step. -/
def canStep (s : Sys) : Bool :=
  (List.range s.philosophers.length).any (fun i =>
    match step s i with
    | .ok _ => true
    | _ => false)

/-- Philosopher `i` has fork `f` in its `forks` array. -/
def assignedTo (s : Sys) (i f : Nat) : Bool :=
  match s.philosophers[i]? with
  | some p => p.forks.1 == f || p.forks.2 == f
  | none => false

/-- The state field of philosopher `i`, if there is such a philosopher. -/
def stateField (s : Sys) (i : Nat) : List State :=
  match s.philosophers[i]? with
  | some p => [p.state]
  | none => []

/-- The values of the state field of philosopher `i` along a schedule: its
value before the first action and after every action, whichever goroutine
takes it. -/
def stateValues (i : Nat) : Sys → List Nat → List State
  | s, [] => stateField s i
  | s, j :: rest =>
    stateField s i ++
      match step s j with
      | .ok s' => stateValues i s' rest
      | _ => []

/-- The values of `p.state` that the `switch` of goroutine `i` reads along a
schedule, one per execution of its loop body. -/
def switchReads (i : Nat) : Sys → List Nat → List State
  | _, [] => []
  | s, j :: rest =>
    match step s j with
    | .ok s' => (if j = i then switchValue s i else []) ++ switchReads i s' rest
    | _ => []

/-- A program state right after launching: every philosopher is `Thinking` at
the start of `cycle` with two different forks of the slice, every mutex is
unlocked, the counter has been raised once per philosopher, and nothing has
been printed. -/
def Fresh (s : Sys) : Prop :=
  (∀ p ∈ s.philosophers, p.loc = Loc.head ∧ p.state = State.Thinking) ∧
  (∀ fk ∈ s.forks, fk.mu = false) ∧
  (∀ p ∈ s.philosophers, p.forks.1 ≠ p.forks.2) ∧
  (∀ p ∈ s.philosophers, p.forks.1 < s.forks.length ∧ p.forks.2 < s.forks.length) ∧
  s.wg = s.philosophers.length ∧ s.out = []

/-! ## Bookkeeping used in the proofs -/

/-- The philosopher record after its next action. -/
def Philosopher.next (p : Philosopher) : Philosopher :=
  match p.loc, p.state with
  | .head, .Thinking => { p with loc := .pickup0 }
  | .head, .Eating => { p with loc := .putdown0 }
  | .head, .Finished => { p with loc := .returned }
  | .pickup0, _ => { p with loc := .pickup1 }
  | .pickup1, _ => { p with loc := .setEating }
  | .setEating, _ => { p with state := .Eating, loc := .head }
  | .putdown0, _ => { p with loc := .putdown1 }
  | .putdown1, _ => { p with loc := .setFinished }
  | .setFinished, _ => { p with state := .Finished, loc := .head }
  | .returned, _ => p

/-- What the next action of philosopher `i` prints. -/
def emit (i : Nat) (p : Philosopher) : List Event :=
  match p.loc, p.state with
  | .head, .Thinking => [Event.thinking i]
  | .head, .Eating => [Event.eating i]
  | .head, .Finished => [Event.full i]
  | .pickup0, _ => [Event.pickedUp i p.forks.1]
  | .pickup1, _ => [Event.pickedUp i p.forks.2]
  | .putdown0, _ => [Event.putDown i p.forks.1]
  | .putdown1, _ => [Event.putDown i p.forks.2]
  | _, _ => []

/-- The fork whose mutex the next action changes, with the new locked bit. -/
def Philosopher.touches (p : Philosopher) : Option (Nat × Bool) :=
  match p.loc with
  | .pickup0 => some (p.forks.1, true)
  | .pickup1 => some (p.forks.2, true)
  | .putdown0 => some (p.forks.1, false)
  | .putdown1 => some (p.forks.2, false)
  | _ => none

/-- How the forks change in a step that touches the given fork. -/
def ForksStep (fs fs' : List Fork) : Option (Nat × Bool) → Prop
  | none => fs' = fs
  | some (f, b) => ∃ fk, fs[f]? = some fk ∧ fk.mu = !b ∧ fs' = fs.set f { fk with mu := b }

/-- The state field agrees with the control point. -/
def Philosopher.valid (p : Philosopher) : Bool :=
  match p.loc with
  | .head => true
  | .pickup0 | .pickup1 | .setEating => p.state == State.Thinking
  | .putdown0 | .putdown1 | .setFinished => p.state == State.Eating
  | .returned => p.state == State.Finished

/-- Everything philosopher `i` prints in a complete `cycle`. -/
def fullScript (i : Nat) (ab : Nat × Nat) : List Event :=
  [Event.thinking i, Event.pickedUp i ab.1, Event.pickedUp i ab.2, Event.eating i,
   Event.putDown i ab.1, Event.putDown i ab.2, Event.full i]

/-- Number of lines printed on the way to the current control point. -/
def Philosopher.emitted (p : Philosopher) : Nat :=
  match p.loc, p.state with
  | .head, .Thinking => 0
  | .pickup0, _ => 1
  | .pickup1, _ => 2
  | .setEating, _ => 3
  | .head, .Eating => 3
  | .putdown0, _ => 4
  | .putdown1, _ => 5
  | .setFinished, _ => 6
  | .head, .Finished => 6
  | .returned, _ => 7

/-- What philosopher `i` has printed on the way to its current control point. -/
def script (i : Nat) (p : Philosopher) : List Event :=
  (fullScript i p.forks).take p.emitted

/-- By its control point, the philosopher is between `pickup` and `putdown`
of its first fork. -/
def Philosopher.hasFirst (p : Philosopher) : Bool :=
  match p.loc, p.state with
  | .pickup1, _ | .setEating, _ | .putdown0, _ => true
  | .head, .Eating => true
  | _, _ => false

/-- By its control point, the philosopher is between `pickup` and `putdown`
of its second fork. -/
def Philosopher.hasSecond (p : Philosopher) : Bool :=
  match p.loc, p.state with
  | .setEating, _ | .putdown0, _ | .putdown1, _ => true
  | .head, .Eating => true
  | _, _ => false

/-- By its control point, the philosopher is between `pickup` and `putdown`
of fork `f`. -/
def Philosopher.has (p : Philosopher) (f : Nat) : Bool :=
  (p.forks.1 == f && p.hasFirst) || (p.forks.2 == f && p.hasSecond)

/-- How many actions of `cycle` the goroutine has behind it. -/
def Philosopher.phase (p : Philosopher) : Nat :=
  match p.loc, p.state with
  | .head, .Thinking => 0
  | .pickup0, _ => 1
  | .pickup1, _ => 2
  | .setEating, _ => 3
  | .head, .Eating => 4
  | .putdown0, _ => 5
  | .putdown1, _ => 6
  | .setFinished, _ => 7
  | .head, .Finished => 8
  | .returned, _ => 9

/-- The state field after `k` actions of `cycle`. -/
def stateAt (k : Nat) : State :=
  if k < 4 then State.Thinking else if k < 8 then State.Eating else State.Finished

/-- The state field after `m`, `m + 1`, ..., `m + c` actions of `cycle`. -/
def orbit : Nat → Nat → List State
  | m, 0 => [stateAt m]
  | m, c + 1 => stateAt m :: orbit (m + 1) c

/-- What the `switch` reads in the action that follows `k` actions of `cycle`. -/
def readAt (k : Nat) : List State :=
  if k = 0 then [State.Thinking] else if k = 4 then [State.Eating]
  else if k = 8 then [State.Finished] else []

/-- What the `switch` reads in the `c` actions that follow `m` actions. -/
def reads : Nat → Nat → List State
  | _, 0 => []
  | m, c + 1 => readAt m ++ reads (m + 1) c

/-- The status line printed by the action that follows `k` actions of `cycle`. -/
def statusAt (i k : Nat) : List Event :=
  if k = 0 then [Event.thinking i] else if k = 4 then [Event.eating i]
  else if k = 8 then [Event.full i] else []

/-- The status lines printed by the `c` actions that follow `m` actions. -/
def statuses (i : Nat) : Nat → Nat → List Event
  | _, 0 => []
  | m, c + 1 => statusAt i m ++ statuses i (m + 1) c

/-- Every philosopher's state field agrees with its control point, it has
printed exactly the lines on the way to that control point, and nobody else
has printed anything. -/
structure LogInv (s : Sys) : Prop where
  valid : ∀ (i : Nat) (p : Philosopher), s.philosophers[i]? = some p → p.valid = true
  log : ∀ (i : Nat) (p : Philosopher), s.philosophers[i]? = some p →
    s.out.filter (ownedBy i) = script i p
  owned : ∀ e ∈ s.out, ∃ i, Event.owner e = some i ∧ i < s.philosophers.length

/-- A mutex is locked exactly when some philosopher is between `pickup` and
`putdown` of that fork, and no two philosophers are so for the same fork. -/
structure ForkInv (s : Sys) : Prop where
  distinct : ∀ (i : Nat) (p : Philosopher), s.philosophers[i]? = some p →
    p.forks.1 ≠ p.forks.2
  inRange : ∀ (i : Nat) (p : Philosopher), s.philosophers[i]? = some p →
    p.forks.1 < s.forks.length ∧ p.forks.2 < s.forks.length
  lockedIff : ∀ (f : Nat) (fk : Fork), s.forks[f]? = some fk →
    (fk.mu = true ↔ ∃ (i : Nat) (p : Philosopher), s.philosophers[i]? = some p ∧ p.has f = true)
  unique : ∀ (i j : Nat) (p q : Philosopher) (f : Nat), s.philosophers[i]? = some p →
    s.philosophers[j]? = some q → p.has f = true → q.has f = true → i = j

/-- The goroutine of the philosopher has not yet returned from `cycle`. -/
def Philosopher.running (p : Philosopher) : Bool := decide (p.loc ≠ Loc.returned)

/-- The `WaitGroup` counter is the number of goroutines that have not yet
returned. -/
def WgInv (s : Sys) : Prop := s.wg = s.philosophers.countP Philosopher.running

/-! ## Steps, one at a time -/

theorem pickupStep_ok {s s' : Sys} {i f : Nat} {p : Philosopher} {next : Loc}
    (h : pickupStep s i p f next = .ok s') :
    ∃ fk, s.forks[f]? = some fk ∧ fk.mu = false ∧
      s' = { s with
        forks := s.forks.set f { fk with mu := true }
        philosophers := s.philosophers.set i { p with loc := next }
        out := s.out ++ [Event.pickedUp i f] } := by
  unfold pickupStep at h
  cases hf : s.forks[f]? with
  | none => simp [hf] at h
  | some fk =>
    cases hm : fk.mu with
    | true => simp [hf, Fork.pickup, hm] at h
    | false =>
      simp [hf, Fork.pickup, hm] at h
      exact ⟨fk, rfl, hm, h.symm⟩

theorem putdownStep_ok {s s' : Sys} {i f : Nat} {p : Philosopher} {next : Loc}
    (h : putdownStep s i p f next = .ok s') :
    ∃ fk, s.forks[f]? = some fk ∧ fk.mu = true ∧
      s' = { s with
        forks := s.forks.set f { fk with mu := false }
        philosophers := s.philosophers.set i { p with loc := next }
        out := s.out ++ [Event.putDown i f] } := by
  unfold putdownStep at h
  cases hf : s.forks[f]? with
  | none => simp [hf] at h
  | some fk =>
    cases hm : fk.mu with
    | false => simp [hf, Fork.putdown, hm] at h
    | true =>
      simp [hf, Fork.putdown, hm] at h
      exact ⟨fk, rfl, hm, h.symm⟩

theorem step_ok {s s' : Sys} {i : Nat} (h : step s i = .ok s') :
    ∃ p, s.philosophers[i]? = some p ∧ p.loc ≠ .returned ∧
      s'.philosophers = s.philosophers.set i p.next ∧
      s'.out = s.out ++ emit i p ∧
      ForksStep s.forks s'.forks p.touches := by
  unfold step at h
  cases hp : s.philosophers[i]? with
  | none => simp [hp] at h
  | some p =>
    refine ⟨p, rfl, ?_⟩
    rcases p with ⟨nm, st, ⟨a, b⟩, l⟩
    simp only [hp] at h
    cases l <;> simp only [] at h
    case returned => simp at h
    case pickup0 =>
      obtain ⟨fk, h1, h2, rfl⟩ := pickupStep_ok h
      cases st <;> simp [Philosopher.next, emit, Philosopher.touches, ForksStep, h1, h2]
    case pickup1 =>
      obtain ⟨fk, h1, h2, rfl⟩ := pickupStep_ok h
      cases st <;> simp [Philosopher.next, emit, Philosopher.touches, ForksStep, h1, h2]
    case putdown0 =>
      obtain ⟨fk, h1, h2, rfl⟩ := putdownStep_ok h
      cases st <;> simp [Philosopher.next, emit, Philosopher.touches, ForksStep, h1, h2]
    case putdown1 =>
      obtain ⟨fk, h1, h2, rfl⟩ := putdownStep_ok h
      cases st <;> simp [Philosopher.next, emit, Philosopher.touches, ForksStep, h1, h2]
    case head =>
      cases st
      · simp at h
        subst h
        simp [Philosopher.next, emit, Philosopher.touches, ForksStep]
      · simp at h
        subst h
        simp [Philosopher.next, emit, Philosopher.touches, ForksStep]
      · by_cases hw : s.wg = 0
        · simp [hw] at h
        · simp [hw] at h
          subst h
          simp [Philosopher.next, emit, Philosopher.touches, ForksStep]
    all_goals
      cases st <;> simp at h <;> subst h <;>
        simp [Philosopher.next, emit, Philosopher.touches, ForksStep]

theorem step_wg {s s' : Sys} {i : Nat} (h : step s i = .ok s') :
    ∃ p, s.philosophers[i]? = some p ∧
      s.wg = s'.wg + (if p.next.loc = Loc.returned then 1 else 0) := by
  unfold step at h
  cases hp : s.philosophers[i]? with
  | none => simp [hp] at h
  | some p =>
    refine ⟨p, rfl, ?_⟩
    rcases p with ⟨nm, st, ⟨a, b⟩, l⟩
    simp only [hp] at h
    cases l <;> simp only [] at h
    case returned => simp at h
    case pickup0 =>
      obtain ⟨fk, -, -, rfl⟩ := pickupStep_ok h
      cases st <;> simp [Philosopher.next]
    case pickup1 =>
      obtain ⟨fk, -, -, rfl⟩ := pickupStep_ok h
      cases st <;> simp [Philosopher.next]
    case putdown0 =>
      obtain ⟨fk, -, -, rfl⟩ := putdownStep_ok h
      cases st <;> simp [Philosopher.next]
    case putdown1 =>
      obtain ⟨fk, -, -, rfl⟩ := putdownStep_ok h
      cases st <;> simp [Philosopher.next]
    case head =>
      cases st
      · simp at h
        subst h
        simp [Philosopher.next]
      · simp at h
        subst h
        simp [Philosopher.next]
      · by_cases hw : s.wg = 0
        · simp [hw] at h
        · simp [hw] at h
          subst h
          simp [Philosopher.next]
          omega
    all_goals
      cases st <;> simp at h <;> subst h <;> simp [Philosopher.next]

theorem run_cons {s t : Sys} {i : Nat} {rest : List Nat} (h : run s (i :: rest) = some t) :
    ∃ s', step s i = .ok s' ∧ run s' rest = some t := by
  unfold run at h
  cases hst : step s i with
  | ok s' =>
    simp only [hst] at h
    exact ⟨s', rfl, h⟩
  | blocked => simp [hst] at h
  | fatal => simp [hst] at h
  | exited => simp [hst] at h

theorem run_invariant (P : Sys → Prop)
    (hstep : ∀ (s s' : Sys) (i : Nat), P s → step s i = .ok s' → P s')
    {sched : List Nat} {s t : Sys} (hs : P s) (h : run s sched = some t) : P t := by
  induction sched generalizing s with
  | nil =>
    simp [run] at h
    exact h ▸ hs
  | cons i rest ih =>
    obtain ⟨s', hst, hrest⟩ := run_cons h
    exact ih (hstep s s' i hs hst) hrest

/-! ## What happens to one philosopher in its own step -/

theorem set_lookup {α : Type} {l : List α} {i j : Nat} {a p q : α}
    (hp : l[i]? = some p) (hq : (l.set i a)[j]? = some q) :
    (j = i ∧ q = a) ∨ (j ≠ i ∧ l[j]? = some q) := by
  have hi : i < l.length := (List.getElem?_eq_some.mp hp).1
  rw [List.getElem?_set] at hq
  by_cases hij : i = j
  · subst hij
    simp [hi] at hq
    exact Or.inl ⟨rfl, hq.symm⟩
  · simp [hij] at hq
    exact Or.inr ⟨fun h => hij h.symm, hq⟩

theorem set_lookup_self {α : Type} {l : List α} {i : Nat} {a p : α}
    (hp : l[i]? = some p) : (l.set i a)[i]? = some a := by
  have hi : i < l.length := (List.getElem?_eq_some.mp hp).1
  simp [hi]

theorem next_forks (p : Philosopher) : p.next.forks = p.forks := by
  rcases p with ⟨nm, st, ab, l⟩
  cases l <;> cases st <;> rfl

theorem next_name (p : Philosopher) : p.next.name = p.name := by
  rcases p with ⟨nm, st, ab, l⟩
  cases l <;> cases st <;> rfl

theorem valid_next (p : Philosopher) (h : p.valid = true) : p.next.valid = true := by
  rcases p with ⟨nm, st, ab, l⟩
  cases l <;> cases st <;> simp_all [Philosopher.valid, Philosopher.next]

theorem script_next (i : Nat) (p : Philosopher) (hv : p.valid = true) :
    script i p.next = script i p ++ emit i p := by
  rcases p with ⟨nm, st, ⟨a, b⟩, l⟩
  cases l <;> cases st <;>
    simp_all [Philosopher.valid, Philosopher.next, script, emit, fullScript,
      Philosopher.emitted]

theorem emit_owned (i : Nat) (p : Philosopher) : ∀ e ∈ emit i p, e.owner = some i := by
  rcases p with ⟨nm, st, ⟨a, b⟩, l⟩
  cases l <;> cases st <;> simp [emit, Event.owner]

theorem filter_emit_self (i : Nat) (p : Philosopher) :
    (emit i p).filter (ownedBy i) = emit i p := by
  apply List.filter_eq_self.mpr
  intro e he
  simp [ownedBy, emit_owned i p e he]

theorem filter_emit_other {i j : Nat} (p : Philosopher) (h : j ≠ i) :
    (emit i p).filter (ownedBy j) = [] := by
  apply List.filter_eq_nil_iff.mpr
  intro e he
  simp [ownedBy, emit_owned i p e he, Ne.symm h]

/-! ## The log invariant -/

theorem logInv_step {s s' : Sys} {i : Nat} (hs : LogInv s) (h : step s i = .ok s') :
    LogInv s' := by
  obtain ⟨p, hp, -, hph, hout, -⟩ := step_ok h
  have hi : i < s.philosophers.length := (List.getElem?_eq_some.mp hp).1
  refine ⟨?_, ?_, ?_⟩
  · intro j q hq
    rw [hph] at hq
    rcases set_lookup hp hq with ⟨-, rfl⟩ | ⟨-, hq'⟩
    · exact valid_next p (hs.valid i p hp)
    · exact hs.valid j q hq'
  · intro j q hq
    rw [hph] at hq
    rw [hout, List.filter_append]
    rcases set_lookup hp hq with ⟨rfl, rfl⟩ | ⟨hji, hq'⟩
    · rw [filter_emit_self, hs.log j p hp, script_next j p (hs.valid j p hp)]
    · rw [filter_emit_other p hji, hs.log j q hq', List.append_nil]
  · intro e he
    rw [hout] at he
    rw [hph, List.length_set]
    rcases List.mem_append.mp he with he | he
    · exact hs.owned e he
    · exact ⟨i, emit_owned i p e he, hi⟩

theorem logInv_run {sched : List Nat} {s t : Sys} (hs : LogInv s)
    (h : run s sched = some t) : LogInv t :=
  run_invariant LogInv (fun _ _ _ hP hst => logInv_step hP hst) hs h

/-! ## The fork invariant -/

theorem has_untouched (p : Philosopher) (h : p.touches = none) (f : Nat) :
    p.next.has f = p.has f := by
  rcases p with ⟨nm, st, ⟨a, b⟩, l⟩
  cases l <;> cases st <;>
    simp_all [Philosopher.touches, Philosopher.next, Philosopher.has, Philosopher.hasFirst,
      Philosopher.hasSecond]

theorem has_touched (p : Philosopher) (hd : p.forks.1 ≠ p.forks.2) {g : Nat} {b : Bool}
    (h : p.touches = some (g, b)) :
    p.has g = !b ∧ p.next.has g = b ∧ ∀ f, f ≠ g → p.next.has f = p.has f := by
  rcases p with ⟨nm, st, ⟨a, c⟩, l⟩
  simp only at hd
  cases l <;> simp [Philosopher.touches] at h <;> obtain ⟨rfl, rfl⟩ := h <;>
    cases st <;>
    simp [Philosopher.next, Philosopher.has, Philosopher.hasFirst, Philosopher.hasSecond,
      hd, Ne.symm hd] <;>
    intro f hf <;> simp [Ne.symm hf]

theorem exists_has_set {l : List Philosopher} {i : Nat} {p a : Philosopher} {f : Nat}
    (hp : l[i]? = some p) (ha : a.has f = p.has f) :
    (∃ (j : Nat) (q : Philosopher), (l.set i a)[j]? = some q ∧ q.has f = true) ↔
      ∃ (j : Nat) (q : Philosopher), l[j]? = some q ∧ q.has f = true := by
  constructor
  · rintro ⟨j, q, hq, hf⟩
    rcases set_lookup hp hq with ⟨rfl, rfl⟩ | ⟨-, hq'⟩
    · exact ⟨j, p, hp, ha ▸ hf⟩
    · exact ⟨j, q, hq', hf⟩
  · rintro ⟨j, q, hq, hf⟩
    by_cases hji : j = i
    · subst hji
      rw [hp] at hq
      cases hq
      exact ⟨j, a, set_lookup_self hp, ha.symm ▸ hf⟩
    · refine ⟨j, q, ?_, hf⟩
      rw [List.getElem?_set_ne (Ne.symm hji)]
      exact hq

theorem forksStep_length {fs fs' : List Fork} {t : Option (Nat × Bool)}
    (h : ForksStep fs fs' t) : fs'.length = fs.length := by
  rcases t with _ | ⟨g, b⟩
  · simp only [ForksStep] at h
    rw [h]
  · obtain ⟨fk, -, -, rfl⟩ := h
    simp

theorem forkInv_step {s s' : Sys} {i : Nat} (hf : ForkInv s)
    (h : step s i = .ok s') : ForkInv s' := by
  obtain ⟨p, hp, -, hph, -, hfs⟩ := step_ok h
  have hd := hf.distinct i p hp
  refine ⟨?_, ?_, ?_, ?_⟩
  · intro j q hq
    rw [hph] at hq
    rcases set_lookup hp hq with ⟨-, rfl⟩ | ⟨-, hq'⟩
    · rw [next_forks]
      exact hd
    · exact hf.distinct j q hq'
  · intro j q hq
    rw [hph] at hq
    rw [forksStep_length hfs]
    rcases set_lookup hp hq with ⟨-, rfl⟩ | ⟨-, hq'⟩
    · rw [next_forks]
      exact hf.inRange i p hp
    · exact hf.inRange j q hq'
  · intro f fk hfk
    rw [hph]
    cases ht : p.touches with
    | none =>
      rw [ht] at hfs
      simp only [ForksStep] at hfs
      rw [hfs] at hfk
      rw [exists_has_set hp (has_untouched p ht f)]
      exact hf.lockedIff f fk hfk
    | some gb =>
      obtain ⟨g, b⟩ := gb
      rw [ht] at hfs
      obtain ⟨fk0, hfk0, hmu, hfs'⟩ := hfs
      obtain ⟨hbefore, hafter, hother⟩ := has_touched p hd ht
      rw [hfs'] at hfk
      rcases set_lookup hfk0 hfk with ⟨rfl, rfl⟩ | ⟨hfg, hfk'⟩
      · cases b with
        | true =>
          simp only [true_iff]
          exact ⟨i, p.next, set_lookup_self hp, hafter⟩
        | false =>
          simp only [Bool.false_eq_true, false_iff]
          rintro ⟨j, q, hq, hqf⟩
          rcases set_lookup hp hq with ⟨-, rfl⟩ | ⟨hji, hq'⟩
          · rw [hafter] at hqf
            exact Bool.false_ne_true hqf
          · exact hji (hf.unique j i q p f hq' hp hqf (by simpa using hbefore))
      · rw [exists_has_set hp (hother f hfg)]
        exact hf.lockedIff f fk hfk'
  · intro j k q r f hq hr hqf hrf
    rw [hph] at hq hr
    have key : ∀ (m : Nat) (t : Philosopher), m ≠ i → s.philosophers[m]? = some t →
        t.has f = true → p.next.has f = true → False := by
      intro m t hmi ht htf hnf
      by_cases hpf : p.has f = true
      · exact hmi (hf.unique m i t p f ht hp htf hpf)
      · cases htch : p.touches with
        | none =>
          rw [has_untouched p htch f] at hnf
          exact hpf hnf
        | some gb =>
          obtain ⟨g, b⟩ := gb
          rw [htch] at hfs
          obtain ⟨fk0, hfk0, hmu, -⟩ := hfs
          obtain ⟨hbefore, hafter, hother⟩ := has_touched p hd htch
          by_cases hfg : f = g
          · subst hfg
            have hlocked : fk0.mu = true := (hf.lockedIff f fk0 hfk0).mpr ⟨m, t, ht, htf⟩
            rw [hafter] at hnf
            subst hnf
            rw [hlocked] at hmu
            exact Bool.noConfusion hmu
          · rw [hother f hfg] at hnf
            exact hpf hnf
    rcases set_lookup hp hq with ⟨rfl, rfl⟩ | ⟨hji, hq'⟩
    · rcases set_lookup hp hr with ⟨rfl, rfl⟩ | ⟨hki, hr'⟩
      · rfl
      · exact (key k r hki hr' hrf hqf).elim
    · rcases set_lookup hp hr with ⟨rfl, rfl⟩ | ⟨hki, hr'⟩
      · exact (key j q hji hq' hqf hrf).elim
      · exact hf.unique j k q r f hq' hr' hqf hrf

theorem forkInv_run {sched : List Nat} {s t : Sys} (hs : ForkInv s)
    (h : run s sched = some t) : ForkInv t :=
  run_invariant ForkInv (fun _ _ _ hP hst => forkInv_step hP hst) hs h

/-! ## The counter of the `WaitGroup` -/

theorem running_pos {s : Sys} {i : Nat} {p : Philosopher}
    (hp : s.philosophers[i]? = some p) (hr : p.loc ≠ Loc.returned) :
    0 < s.philosophers.countP Philosopher.running := by
  apply List.countP_pos_iff.mpr
  exact ⟨p, List.getElem?_mem hp, by simp [Philosopher.running, hr]⟩

theorem wg_pos {s : Sys} (hW : WgInv s) {i : Nat} {p : Philosopher}
    (hp : s.philosophers[i]? = some p) (hr : p.loc ≠ Loc.returned) : s.wg ≠ 0 := by
  have := running_pos hp hr
  unfold WgInv at hW
  omega

theorem wgInv_step {s s' : Sys} {i : Nat} (hW : WgInv s) (h : step s i = .ok s') :
    WgInv s' := by
  obtain ⟨p, hp, hr, hph, -, -⟩ := step_ok h
  obtain ⟨p', hp', hwg⟩ := step_wg h
  rw [hp] at hp'
  cases hp'
  obtain ⟨hi, hpi⟩ := List.getElem?_eq_some.mp hp
  have hpos := running_pos hp hr
  unfold WgInv at hW ⊢
  rw [hph, List.countP_set _ _ _ _ hi, hpi]
  by_cases hn : p.next.loc = Loc.returned
  · simp [hn] at hwg
    simp [Philosopher.running, hr, hn]
    omega
  · simp [hn] at hwg
    simp [Philosopher.running, hr, hn]
    omega

theorem wgInv_run {sched : List Nat} {s t : Sys} (hs : WgInv s)
    (h : run s sched = some t) : WgInv t :=
  run_invariant WgInv (fun _ _ _ hP hst => wgInv_step hP hst) hs h

theorem wgInv_init {s : Sys}
    (hfresh : ∀ p ∈ s.philosophers, p.loc = Loc.head ∧ p.state = State.Thinking)
    (hwg : s.wg = s.philosophers.length) : WgInv s := by
  unfold WgInv
  rw [hwg]
  symm
  apply List.countP_eq_length.mpr
  intro p hp
  simp [Philosopher.running, (hfresh p hp).1]

theorem mainSys_wgInv : WgInv mainSys := by
  apply wgInv_init
  · decide
  · rfl

/-! ## Initial states -/

theorem logInv_init {s : Sys}
    (hfresh : ∀ p ∈ s.philosophers, p.loc = Loc.head ∧ p.state = State.Thinking)
    (hout : s.out = []) : LogInv s := by
  refine ⟨?_, ?_, ?_⟩
  · intro i p hp
    have := (hfresh p (List.getElem?_mem hp)).1
    simp [Philosopher.valid, this]
  · intro i p hp
    obtain ⟨h1, h2⟩ := hfresh p (List.getElem?_mem hp)
    simp [hout, script, Philosopher.emitted, h1, h2]
  · intro e he
    simp [hout] at he

theorem has_fresh {p : Philosopher} (h : p.loc = Loc.head ∧ p.state = State.Thinking)
    (f : Nat) : p.has f = false := by
  simp [Philosopher.has, Philosopher.hasFirst, Philosopher.hasSecond, h.1, h.2]

theorem forkInv_init {s : Sys}
    (hfresh : ∀ p ∈ s.philosophers, p.loc = Loc.head ∧ p.state = State.Thinking)
    (hfree : ∀ fk ∈ s.forks, fk.mu = false)
    (hd : ∀ p ∈ s.philosophers, p.forks.1 ≠ p.forks.2)
    (hr : ∀ p ∈ s.philosophers, p.forks.1 < s.forks.length ∧ p.forks.2 < s.forks.length) :
    ForkInv s := by
  refine ⟨?_, ?_, ?_, ?_⟩
  · intro i p hp
    exact hd p (List.getElem?_mem hp)
  · intro i p hp
    exact hr p (List.getElem?_mem hp)
  · intro f fk hfk
    rw [hfree fk (List.getElem?_mem hfk)]
    simp only [Bool.false_eq_true, false_iff]
    rintro ⟨i, p, hp, hpf⟩
    rw [has_fresh (hfresh p (List.getElem?_mem hp))] at hpf
    exact Bool.false_ne_true hpf
  · intro i j p q f hp _ hpf _
    rw [has_fresh (hfresh p (List.getElem?_mem hp))] at hpf
    exact (Bool.false_ne_true hpf).elim

theorem mainSys_logInv : LogInv mainSys := by
  apply logInv_init
  · decide
  · rfl

theorem mainSys_forkInv : ForkInv mainSys := by
  apply forkInv_init <;> decide

/-! ## Holding a fork, read off the output -/

theorem count_eq_script {s : Sys} (hL : LogInv s) {i : Nat} {p : Philosopher}
    (hp : s.philosophers[i]? = some p) (e : Event) (he : e.owner = some i) :
    s.out.count e = (script i p).count e := by
  rw [← hL.log i p hp]
  exact (List.count_filter (by simp [ownedBy, he])).symm

theorem holds_eq_has {s : Sys} (hL : LogInv s) {i : Nat} {p : Philosopher}
    (hp : s.philosophers[i]? = some p) (f : Nat) : holds s i f = p.has f := by
  have hv := hL.valid i p hp
  unfold holds
  rw [count_eq_script hL hp _ (by rfl), count_eq_script hL hp _ (by rfl)]
  rcases p with ⟨nm, st, ⟨a, b⟩, l⟩
  cases l <;> cases st <;>
    simp [Philosopher.valid] at hv <;>
    simp [script, fullScript, Philosopher.emitted, Philosopher.has, Philosopher.hasFirst,
      Philosopher.hasSecond, List.count_cons] <;>
    by_cases h1 : a = f <;> by_cases h2 : b = f <;> simp [h1, h2]

theorem holds_absent {s : Sys} (hL : LogInv s) {i : Nat}
    (hi : s.philosophers.length ≤ i) (f : Nat) : holds s i f = false := by
  have h0 : ∀ e : Event, e.owner = some i → s.out.count e = 0 := by
    intro e he
    apply List.count_eq_zero.mpr
    intro hmem
    obtain ⟨j, hj, hlt⟩ := hL.owned e hmem
    rw [he] at hj
    cases hj
    omega
  simp [holds, h0 (Event.putDown i f) rfl, h0 (Event.pickedUp i f) rfl]

/-! ## What never changes -/

theorem step_static {s s' : Sys} {i : Nat} (h : step s i = .ok s') :
    s'.philosophers.map (fun p => (p.name, p.forks)) =
        s.philosophers.map (fun p => (p.name, p.forks)) ∧
      s'.forks.map Fork.fnum = s.forks.map Fork.fnum := by
  obtain ⟨p, hp, -, hph, -, hfs⟩ := step_ok h
  constructor
  · rw [hph, List.map_set, next_name, next_forks]
    apply List.ext_getElem?
    intro j
    rw [List.getElem?_set]
    by_cases hij : i = j
    · subst hij
      obtain ⟨hi, hpi⟩ := List.getElem?_eq_some.mp hp
      simp [hi, hpi]
    · simp [hij]
  · rcases ht : p.touches with _ | ⟨g, b⟩
    · rw [ht] at hfs
      simp only [ForksStep] at hfs
      rw [hfs]
    · rw [ht] at hfs
      obtain ⟨fk, hfk, -, hfs'⟩ := hfs
      obtain ⟨hg, hgk⟩ := List.getElem?_eq_some.mp hfk
      rw [hfs', List.map_set]
      apply List.ext_getElem?
      intro j
      rw [List.getElem?_set]
      by_cases hij : g = j
      · subst hij
        simp [hg, hgk]
      · simp [hij]

theorem run_static {sched : List Nat} {s t : Sys} (h : run s sched = some t) :
    t.philosophers.map (fun p => (p.name, p.forks)) =
        s.philosophers.map (fun p => (p.name, p.forks)) ∧
      t.forks.map Fork.fnum = s.forks.map Fork.fnum :=
  run_invariant
    (fun u => u.philosophers.map (fun p => (p.name, p.forks)) =
        s.philosophers.map (fun p => (p.name, p.forks)) ∧
      u.forks.map Fork.fnum = s.forks.map Fork.fnum)
    (fun _ _ _ hP hst => ⟨(step_static hst).1.trans hP.1, (step_static hst).2.trans hP.2⟩)
    ⟨rfl, rfl⟩ h

theorem run_append {s : Sys} {xs ys : List Nat} :
    run s (xs ++ ys) = (run s xs).bind (fun t => run t ys) := by
  induction xs generalizing s with
  | nil => simp [run]
  | cons i rest ih =>
    simp only [List.cons_append, run]
    cases hst : step s i <;> simp [ih]

theorem main_logInv {sched : List Nat} {s : Sys} (h : run mainSys sched = some s) :
    LogInv s := logInv_run mainSys_logInv h

theorem main_forkInv {sched : List Nat} {s : Sys} (h : run mainSys sched = some s) :
    ForkInv s := forkInv_run mainSys_forkInv h

theorem main_wgInv {sched : List Nat} {s : Sys} (h : run mainSys sched = some s) :
    WgInv s := wgInv_run mainSys_wgInv h

theorem static_lookup {sched : List Nat} {s0 s : Sys} (h : run s0 sched = some s)
    {i : Nat} {p : Philosopher} (hp : s.philosophers[i]? = some p) :
    ∃ p0, s0.philosophers[i]? = some p0 ∧ p0.forks = p.forks ∧ p0.name = p.name := by
  have hmap := congrArg (fun l => l[i]?) (run_static h).1
  simp only [List.getElem?_map, hp, Option.map_some'] at hmap
  cases h0 : s0.philosophers[i]? with
  | none => simp [h0] at hmap
  | some p0 =>
    simp [h0] at hmap
    exact ⟨p0, rfl, hmap.2.symm, hmap.1.symm⟩

theorem static_lookup_fwd {sched : List Nat} {s0 s : Sys} (h : run s0 sched = some s)
    {i : Nat} {p0 : Philosopher} (hp : s0.philosophers[i]? = some p0) :
    ∃ p, s.philosophers[i]? = some p ∧ p.forks = p0.forks ∧ p.name = p0.name := by
  have hmap := congrArg (fun l => l[i]?) (run_static h).1
  simp only [List.getElem?_map, hp, Option.map_some'] at hmap
  cases h1 : s.philosophers[i]? with
  | none => simp [h1] at hmap
  | some p =>
    simp [h1] at hmap
    exact ⟨p, rfl, hmap.2, hmap.1⟩

theorem run_length {sched : List Nat} {s0 s : Sys} (h : run s0 sched = some s) :
    s.philosophers.length = s0.philosophers.length ∧ s.forks.length = s0.forks.length := by
  have h1 := congrArg List.length (run_static h).1
  have h2 := congrArg List.length (run_static h).2
  simpa using And.intro h1 h2

theorem finished_forkOps {s : Sys} (hL : LogInv s) {i : Nat} {p : Philosopher}
    (hp : s.philosophers[i]? = some p) (hfin : p.state = State.Finished) :
    forkOps s i = [Event.pickedUp i p.forks.1, Event.pickedUp i p.forks.2,
      Event.putDown i p.forks.1, Event.putDown i p.forks.2] := by
  have hv := hL.valid i p hp
  have hlog := hL.log i p hp
  have : forkOps s i = (s.out.filter (ownedBy i)).filter (fun e => e.isPickup || e.isPutdown) := by
    rw [List.filter_filter]
    unfold forkOps
    congr 1
    funext e
    exact Bool.and_comm _ _
  rw [this, hlog]
  rcases p with ⟨nm, st, ⟨a, b⟩, l⟩
  simp only at hfin
  subst hfin
  cases l <;> simp [Philosopher.valid] at hv <;>
    simp [script, fullScript, Philosopher.emitted, Event.isPickup, Event.isPutdown,
      List.filter_cons]

theorem finished_stays {s s' : Sys} {i j : Nat} (hL : LogInv s) {p : Philosopher}
    (hp : s.philosophers[i]? = some p) (hfin : p.state = State.Finished)
    (h : step s j = .ok s') :
    ∃ q, s'.philosophers[i]? = some q ∧ q.state = State.Finished ∧ q.forks = p.forks := by
  obtain ⟨r, hr, -, hph, -, -⟩ := step_ok h
  by_cases hij : i = j
  · subst hij
    rw [hp] at hr
    cases hr
    have hv := hL.valid i p hp
    refine ⟨p.next, ?_, ?_, next_forks p⟩
    · rw [hph]
      exact set_lookup_self hp
    · rcases p with ⟨nm, st, ab, l⟩
      simp only at hfin
      subst hfin
      cases l <;> simp [Philosopher.valid] at hv <;> rfl
  · refine ⟨p, ?_, hfin, rfl⟩
    rw [hph, List.getElem?_set_ne (fun h => hij h.symm)]
    exact hp

theorem finished_stays_run {sched : List Nat} {s t : Sys} {i : Nat} (hL : LogInv s)
    {p : Philosopher} (hp : s.philosophers[i]? = some p) (hfin : p.state = State.Finished)
    (h : run s sched = some t) :
    ∃ q, t.philosophers[i]? = some q ∧ q.state = State.Finished ∧ q.forks = p.forks := by
  have key := run_invariant
    (fun u => LogInv u ∧
      ∃ q, u.philosophers[i]? = some q ∧ q.state = State.Finished ∧ q.forks = p.forks)
    (fun u u' j hP hst => by
      obtain ⟨hLu, q, hq, hqf, hqk⟩ := hP
      obtain ⟨r, hr, hrf, hrk⟩ := finished_stays hLu hq hqf hst
      exact ⟨logInv_step hLu hst, r, hr, hrf, hrk.trans hqk⟩)
    ⟨hL, p, hp, hfin, rfl⟩ h
  exact key.2

theorem finished_has {p : Philosopher} (hv : p.valid = true)
    (hfin : p.state = State.Finished) (f : Nat) : p.has f = false := by
  rcases p with ⟨nm, st, ab, l⟩
  simp only at hfin
  subst hfin
  cases l <;> simp [Philosopher.valid] at hv <;>
    simp [Philosopher.has, Philosopher.hasFirst, Philosopher.hasSecond]

theorem pickupStep_ne_fatal {s : Sys} {i f : Nat} {p : Philosopher} {next : Loc}
    (hf : f < s.forks.length) : pickupStep s i p f next ≠ .fatal := by
  unfold pickupStep
  rw [List.getElem?_eq_getElem hf]
  simp only [Fork.pickup]
  cases s.forks[f].mu <;> simp

theorem putdownStep_ne_fatal {s : Sys} {i f : Nat} {p : Philosopher} {next : Loc}
    {fk : Fork} (hfk : s.forks[f]? = some fk) (hmu : fk.mu = true) :
    putdownStep s i p f next ≠ .fatal := by
  unfold putdownStep
  simp [hfk, Fork.putdown, hmu]

theorem has_locked {s : Sys} (hF : ForkInv s) {i : Nat} {p : Philosopher}
    (hp : s.philosophers[i]? = some p) {f : Nat} (hf : f < s.forks.length)
    (hpf : p.has f = true) : ∃ fk, s.forks[f]? = some fk ∧ fk.mu = true :=
  ⟨s.forks[f], List.getElem?_eq_getElem hf,
    (hF.lockedIff f _ (List.getElem?_eq_getElem hf)).mpr ⟨i, p, hp, hpf⟩⟩

theorem step_ne_fatal {s : Sys} (hF : ForkInv s) (hW : WgInv s) (i : Nat) :
    step s i ≠ .fatal := by
  unfold step
  cases hp : s.philosophers[i]? with
  | none => simp
  | some p =>
    have hwg := fun hr => wg_pos hW hp hr
    obtain ⟨hr1, hr2⟩ := hF.inRange i p hp
    have hlock := fun f hf hpf => has_locked hF hp (f := f) hf hpf
    rcases p with ⟨nm, st, ⟨a, b⟩, l⟩
    simp only at hr1 hr2
    cases l <;> simp only []
    case pickup0 => exact pickupStep_ne_fatal hr1
    case pickup1 => exact pickupStep_ne_fatal hr2
    case putdown0 =>
      obtain ⟨fk, hfk, hmu⟩ := hlock a hr1
        (by simp [Philosopher.has, Philosopher.hasFirst])
      exact putdownStep_ne_fatal hfk hmu
    case putdown1 =>
      obtain ⟨fk, hfk, hmu⟩ := hlock b hr2
        (by simp [Philosopher.has, Philosopher.hasSecond])
      exact putdownStep_ne_fatal hfk hmu
    case head =>
      have hw : s.wg ≠ 0 := hwg (by simp)
      cases st <;> simp [hw]
    all_goals simp

theorem emit_putDown {i f : Nat} {p : Philosopher} (h : emit i p = [Event.putDown i f]) :
    p.touches = some (f, false) ∧ p.has f = true := by
  rcases p with ⟨nm, st, ⟨a, b⟩, l⟩
  cases l <;> cases st <;>
    simp [emit] at h <;> subst h <;>
    simp [Philosopher.touches, Philosopher.has, Philosopher.hasFirst, Philosopher.hasSecond]

/-! ## Counting lines philosopher by philosopher -/

theorem countP_by_owner (P : Event → Bool) (n : Nat) (l : List Event)
    (h : ∀ e ∈ l, ∃ i, Event.owner e = some i ∧ i < n) :
    l.countP P = Finset.sum (Finset.range n) (fun i => (l.filter (ownedBy i)).countP P) := by
  induction l with
  | nil => simp
  | cons e l ih =>
    obtain ⟨j, hj, hjn⟩ := h e (List.mem_cons_self e l)
    have ih' := ih (fun x hx => h x (List.mem_cons_of_mem e hx))
    have hterm : ∀ i, ((e :: l).filter (ownedBy i)).countP P =
        (l.filter (ownedBy i)).countP P + if j = i then (if P e = true then 1 else 0) else 0 := by
      intro i
      by_cases hji : j = i
      · subst hji
        simp [List.filter_cons, ownedBy, hj, List.countP_cons]
      · have : ¬ (some j = some i) := fun hh => hji (Option.some.inj hh)
        simp [List.filter_cons, ownedBy, hj, hji]
    simp only [hterm, Finset.sum_add_distrib, Finset.sum_ite_eq, Finset.mem_range, hjn,
      if_true, List.countP_cons, ih']

theorem finished_script {p : Philosopher} (hv : p.valid = true)
    (hfin : p.state = State.Finished) (i : Nat) :
    script i p = (fullScript i p.forks).take 6 ∨ script i p = fullScript i p.forks := by
  rcases p with ⟨nm, st, ab, l⟩
  simp only at hfin
  subst hfin
  cases l <;> simp [Philosopher.valid] at hv <;>
    simp [script, fullScript, Philosopher.emitted]

theorem main_lookup {sched : List Nat} {s : Sys} (h : run mainSys sched = some s)
    {i : Nat} (hi : i < 5) :
    ∃ p, s.philosophers[i]? = some p ∧ p.forks = ((i + 4) % 5, i) := by
  have h0 : ∃ p0, mainSys.philosophers[i]? = some p0 ∧ p0.forks = ((i + 4) % 5, i) := by
    interval_cases i <;> exact ⟨_, rfl, rfl⟩
  obtain ⟨p0, hp0, hf0⟩ := h0
  obtain ⟨p, hp, hf, -⟩ := static_lookup_fwd h hp0
  exact ⟨p, hp, hf.trans hf0⟩

theorem main_finished_log {sched : List Nat} {s : Sys} (h : run mainSys sched = some s)
    (hfin : allFinished s = true) {i : Nat} (hi : i < 5) :
    s.out.filter (ownedBy i) = (fullScript i ((i + 4) % 5, i)).take 6 ∨
      s.out.filter (ownedBy i) = fullScript i ((i + 4) % 5, i) := by
  obtain ⟨p, hp, hf⟩ := main_lookup h hi
  have hL := main_logInv h
  have hpfin : p.state = State.Finished := by
    have := List.all_eq_true.mp hfin p (List.getElem?_mem hp)
    simpa using this
  rw [hL.log i p hp, ← hf]
  exact finished_script (hL.valid i p hp) hpfin i

theorem main_countP {sched : List Nat} {s : Sys} (h : run mainSys sched = some s)
    (P : Event → Bool) :
    s.out.countP P = Finset.sum (Finset.range 5)
      (fun i => (s.out.filter (ownedBy i)).countP P) := by
  apply countP_by_owner
  intro e he
  obtain ⟨i, hi, hlt⟩ := (main_logInv h).owned e he
  rw [(run_length h).1] at hlt
  exact ⟨i, hi, hlt⟩

/-! ## One philosopher among the others -/

theorem phase_next (p : Philosopher) (hv : p.valid = true) (hr : p.loc ≠ Loc.returned) :
    p.next.phase = p.phase + 1 := by
  rcases p with ⟨nm, st, ab, l⟩
  cases l <;> cases st <;>
    simp_all [Philosopher.valid, Philosopher.next, Philosopher.phase]

theorem phase_le (p : Philosopher) : p.phase ≤ 9 := by
  rcases p with ⟨nm, st, ab, l⟩
  cases l <;> cases st <;> simp [Philosopher.phase]

theorem phase_returned (p : Philosopher) : p.phase = 9 ↔ p.loc = Loc.returned := by
  rcases p with ⟨nm, st, ab, l⟩
  cases l <;> cases st <;> simp [Philosopher.phase]

theorem state_of_phase (p : Philosopher) (hv : p.valid = true) :
    p.state = stateAt p.phase := by
  rcases p with ⟨nm, st, ab, l⟩
  cases l <;> cases st <;>
    simp_all [Philosopher.valid, Philosopher.phase, stateAt]

theorem switchValue_of_phase {s : Sys} {i : Nat} {p : Philosopher}
    (hp : s.philosophers[i]? = some p) (hv : p.valid = true) (hr : p.loc ≠ Loc.returned) :
    switchValue s i = readAt p.phase := by
  rcases p with ⟨nm, st, ab, l⟩
  cases l <;> cases st <;>
    simp_all [switchValue, Philosopher.valid, Philosopher.phase, readAt]

theorem status_of_emit (i : Nat) (p : Philosopher) (hv : p.valid = true) :
    (emit i p).filter (fun e => ownedBy i e && !(e.isPickup || e.isPutdown)) =
      statusAt i p.phase := by
  rcases p with ⟨nm, st, ab, l⟩
  cases l <;> cases st <;>
    simp_all [Philosopher.valid, Philosopher.phase, statusAt, emit, ownedBy, Event.owner,
      Event.isPickup, Event.isPutdown]

theorem status_of_other {i j : Nat} (q : Philosopher) (h : j ≠ i) :
    (emit j q).filter (fun e => ownedBy i e && !(e.isPickup || e.isPutdown)) = [] := by
  apply List.filter_eq_nil_iff.mpr
  intro e he
  simp [ownedBy, emit_owned j q e he, h]

theorem orbit_head (m c : Nat) : ∃ tl, orbit m c = stateAt m :: tl := by
  cases c with
  | zero => exact ⟨[], rfl⟩
  | succ c => exact ⟨orbit (m + 1) c, rfl⟩

theorem destutter_stay (x a : State) (sv tl : List State)
    (ih : ∀ y, List.destutter' (· ≠ ·) y sv = List.destutter' (· ≠ ·) y (a :: tl)) :
    List.destutter' (· ≠ ·) x (a :: sv) = List.destutter' (· ≠ ·) x (a :: tl) := by
  rw [List.destutter'_cons, List.destutter'_cons, ih a, ih x]
  have haa : List.destutter' (· ≠ ·) a (a :: tl) = List.destutter' (· ≠ ·) a tl := by
    rw [List.destutter'_cons, if_neg (fun h => h rfl)]
  by_cases hx : x ≠ a
  · rw [if_pos hx, if_pos hx, haa]
  · rw [if_neg hx, if_neg hx, List.destutter'_cons, if_neg hx]

theorem lifecycle_run (i : Nat) (sched : List Nat) :
    ∀ (s t : Sys) (p : Philosopher), s.philosophers[i]? = some p → p.valid = true →
      run s sched = some t →
      ∃ q, t.philosophers[i]? = some q ∧ q.valid = true ∧
        q.phase = p.phase + sched.count i ∧
        (∀ x, List.destutter' (· ≠ ·) x (stateValues i s sched) =
          List.destutter' (· ≠ ·) x (orbit p.phase (sched.count i))) ∧
        switchReads i s sched = reads p.phase (sched.count i) ∧
        statusLines t i = statusLines s i ++ statuses i p.phase (sched.count i) := by
  induction sched with
  | nil =>
    intro s t p hp hv h
    simp [run] at h
    subst h
    refine ⟨p, hp, hv, by simp, ?_, by simp [switchReads, reads], by simp [statuses]⟩
    intro x
    simp [stateValues, stateField, hp, orbit, state_of_phase p hv]
  | cons j rest ih =>
    intro s t p hp hv h
    obtain ⟨s', hst, hrest⟩ := run_cons h
    obtain ⟨q0, hq0, hr0, hph, hout, -⟩ := step_ok hst
    have hsv : stateValues i s (j :: rest) = p.state :: stateValues i s' rest := by
      simp [stateValues, stateField, hp, hst]
    have hsr : switchReads i s (j :: rest) =
        (if j = i then switchValue s i else []) ++ switchReads i s' rest := by
      simp [switchReads, hst]
    have hsl : statusLines s' i = statusLines s i ++
        (emit j q0).filter (fun e => ownedBy i e && !(e.isPickup || e.isPutdown)) := by
      simp [statusLines, hout]
    by_cases hji : j = i
    · subst hji
      rw [hp] at hq0
      cases hq0
      have hp' : s'.philosophers[j]? = some p.next := by
        rw [hph]
        exact set_lookup_self hp
      obtain ⟨q, hq, hqv, hqp, hqs, hqr, hql⟩ := ih s' t p.next hp' (valid_next p hv) hrest
      rw [phase_next p hv hr0] at hqp hqs hqr hql
      refine ⟨q, hq, hqv, ?_, ?_, ?_, ?_⟩
      · rw [hqp, List.count_cons_self]
        omega
      · intro x
        rw [hsv, List.count_cons_self, orbit, state_of_phase p hv,
          List.destutter'_cons, List.destutter'_cons, hqs, hqs]
      · rw [hsr, List.count_cons_self, reads, hqr, if_pos rfl,
          switchValue_of_phase hp hv hr0]
      · rw [hql, hsl, status_of_emit j p hv, List.count_cons_self, statuses,
          List.append_assoc]
    · have hp' : s'.philosophers[i]? = some p := by
        rw [hph, List.getElem?_set_ne hji]
        exact hp
      obtain ⟨q, hq, hqv, hqp, hqs, hqr, hql⟩ := ih s' t p hp' hv hrest
      have hcount : (j :: rest).count i = rest.count i :=
        List.count_cons_of_ne (fun h => hji h.symm) rest
      refine ⟨q, hq, hqv, ?_, ?_, ?_, ?_⟩
      · rw [hqp, hcount]
      · intro x
        rw [hsv, hcount, state_of_phase p hv]
        obtain ⟨tl, htl⟩ := orbit_head p.phase (rest.count i)
        rw [htl] at hqs ⊢
        exact destutter_stay x _ _ _ hqs
      · rw [hsr, hcount, hqr, if_neg hji, List.nil_append]
      · rw [hql, hsl, status_of_other q0 hji, List.append_nil, hcount]

theorem pickupStep_ne_exited (s : Sys) (i : Nat) (p : Philosopher) (f : Nat) (next : Loc) :
    pickupStep s i p f next ≠ .exited := by
  unfold pickupStep
  cases s.forks[f]? with
  | none => simp
  | some fk =>
    simp only [Fork.pickup]
    cases fk.mu <;> simp

theorem putdownStep_ne_exited (s : Sys) (i : Nat) (p : Philosopher) (f : Nat) (next : Loc) :
    putdownStep s i p f next ≠ .exited := by
  unfold putdownStep
  cases s.forks[f]? with
  | none => simp
  | some fk =>
    simp only [Fork.putdown]
    cases fk.mu <;> simp

theorem putdownStep_ne_blocked (s : Sys) (i : Nat) (p : Philosopher) (f : Nat) (next : Loc) :
    putdownStep s i p f next ≠ .blocked := by
  unfold putdownStep
  cases s.forks[f]? with
  | none => simp
  | some fk =>
    simp only [Fork.putdown]
    cases fk.mu <;> simp

theorem step_exited {s : Sys} {i : Nat} {p : Philosopher}
    (hp : s.philosophers[i]? = some p) (h : step s i = .exited) : p.loc = Loc.returned := by
  unfold step at h
  rcases p with ⟨nm, st, ⟨a, b⟩, l⟩
  simp only [hp] at h
  cases l <;> simp only [] at h
  case returned => rfl
  case pickup0 => exact (pickupStep_ne_exited _ _ _ _ _ h).elim
  case pickup1 => exact (pickupStep_ne_exited _ _ _ _ _ h).elim
  case putdown0 => exact (putdownStep_ne_exited _ _ _ _ _ h).elim
  case putdown1 => exact (putdownStep_ne_exited _ _ _ _ _ h).elim
  case head =>
    cases st
    · simp at h
    · simp at h
    · by_cases hw : s.wg = 0 <;> simp [hw] at h
  all_goals simp at h

theorem step_blocked {s : Sys} {i : Nat} {p : Philosopher}
    (hp : s.philosophers[i]? = some p) (h : step s i = .blocked) :
    p.loc = Loc.pickup0 ∨ p.loc = Loc.pickup1 := by
  unfold step at h
  rcases p with ⟨nm, st, ⟨a, b⟩, l⟩
  simp only [hp] at h
  cases l <;> simp only [] at h
  case pickup0 => exact Or.inl rfl
  case pickup1 => exact Or.inr rfl
  case putdown0 => exact (putdownStep_ne_blocked _ _ _ _ _ h).elim
  case putdown1 => exact (putdownStep_ne_blocked _ _ _ _ _ h).elim
  case head =>
    cases st
    · simp at h
    · simp at h
    · by_cases hw : s.wg = 0 <;> simp [hw] at h
  all_goals simp at h

theorem stateValues_head {s : Sys} {i : Nat} {p : Philosopher}
    (hp : s.philosophers[i]? = some p) (sched : List Nat) :
    ∃ tl, stateValues i s sched = p.state :: tl := by
  cases sched with
  | nil => exact ⟨[], by simp [stateValues, stateField, hp]⟩
  | cons j rest => exact ⟨_, by simp [stateValues, stateField, hp]; rfl⟩

theorem fresh_step_ne_fatal {s0 t : Sys} {sched : List Nat} (hfresh : Fresh s0)
    (h : run s0 sched = some t) (i : Nat) : step t i ≠ .fatal := by
  obtain ⟨h1, h2, h3, h4, h5, -⟩ := hfresh
  exact step_ne_fatal (forkInv_run (forkInv_init h1 h2 h3 h4) h)
    (wgInv_run (wgInv_init h1 h5) h) i

/-! ## One philosopher on its own -/

/-- One philosopher on its own, from `Thinking` with both forks free: `cycle`
returns after nine actions, having read `Thinking`, `Eating`, `Finished` in
its three passes through the `switch`. -/
theorem cycle_alone (s : Sys) (i : Nat) (p : Philosopher) (fa fb : Fork) (k : Nat)
    (hp : s.philosophers[i]? = some p)
    (hstate : p.state = State.Thinking) (hloc : p.loc = Loc.head)
    (ha : s.forks[p.forks.1]? = some fa) (hb : s.forks[p.forks.2]? = some fb)
    (hfa : fa.mu = false) (hfb : fb.mu = false) (hab : p.forks.1 ≠ p.forks.2)
    (hwg : s.wg ≠ 0) :
    cycle (k + 10) s i = some
      ({ forks := s.forks
         philosophers := s.philosophers.set i { p with state := .Finished, loc := .returned }
         wg := s.wg - 1
         out := s.out ++ fullScript i p.forks },
       [State.Thinking, State.Eating, State.Finished]) := by
  obtain ⟨hi, hpi⟩ := List.getElem?_eq_some.mp hp
  obtain ⟨hal, hai⟩ := List.getElem?_eq_some.mp ha
  obtain ⟨hbl, hbi⟩ := List.getElem?_eq_some.mp hb
  rcases p with ⟨nm, st, ⟨a, b⟩, l⟩
  simp only at hstate hloc hab ha hb hal hbl hai hbi
  subst hstate hloc
  simp [cycle, step, pickupStep, putdownStep, Fork.pickup, Fork.putdown, switchValue,
    hp, ha, hb, hfa, hfb, hi, hal, hbl, hai, hbi, hab, Ne.symm hab, fullScript, hwg]
  rcases fa with ⟨na, ma⟩
  rcases fb with ⟨nb, mb⟩
  simp only at hfa hfb
  subst hfa hfb
  apply List.ext_getElem?
  intro j
  simp only [List.getElem?_set, List.length_set]
  by_cases hbj : b = j
  · subst hbj
    simp [hbl, hb]
  · by_cases haj : a = j
    · subst haj
      simp [hbj, hal, ha]
    · simp [hbj, haj]

/-! ## States without an enabled step -/

theorem canStep_false {s : Sys} (h : canStep s = false) (i : Nat) (s' : Sys) :
    step s i ≠ .ok s' := by
  intro hst
  obtain ⟨p, hp, -⟩ := step_ok hst
  have hi : i < s.philosophers.length := (List.getElem?_eq_some.mp hp).1
  have : canStep s = true := by
    unfold canStep
    rw [List.any_eq_true]
    exact ⟨i, List.mem_range.mpr hi, by rw [hst]⟩
  rw [h] at this
  exact Bool.false_ne_true this

theorem pickupStep_free {s : Sys} (i : Nat) {f : Nat} (p : Philosopher) (next : Loc)
    {fk : Fork} (hfk : s.forks[f]? = some fk) (hmu : fk.mu = false) :
    ∃ s', pickupStep s i p f next = .ok s' := by
  unfold pickupStep
  simp [hfk, Fork.pickup, hmu]

theorem pickupStep_locked {s : Sys} {i f : Nat} {p : Philosopher} {next : Loc} {fk : Fork}
    (hfk : s.forks[f]? = some fk) (hmu : fk.mu = true) :
    pickupStep s i p f next = .blocked := by
  unfold pickupStep
  simp [hfk, Fork.pickup, hmu]

theorem putdownStep_locked {s : Sys} (i : Nat) {f : Nat} (p : Philosopher) (next : Loc)
    {fk : Fork} (hfk : s.forks[f]? = some fk) (hmu : fk.mu = true) :
    ∃ s', putdownStep s i p f next = .ok s' := by
  unfold putdownStep
  simp [hfk, Fork.putdown, hmu]

theorem pickup_stuck {s : Sys} (hF : ForkInv s) {i f : Nat} {p : Philosopher} {next : Loc}
    (hf : f < s.forks.length) (hstuck : ∀ s', pickupStep s i p f next ≠ .ok s') :
    pickupStep s i p f next = .blocked ∧
      ∃ (j : Nat) (q : Philosopher), s.philosophers[j]? = some q ∧ q.has f = true := by
  have hfk : s.forks[f]? = some s.forks[f] := List.getElem?_eq_getElem hf
  cases hmu : s.forks[f].mu with
  | false =>
    obtain ⟨s', hs'⟩ := pickupStep_free i p next hfk hmu
    exact (hstuck s' hs').elim
  | true => exact ⟨pickupStep_locked hfk hmu, (hF.lockedIff f _ hfk).mp hmu⟩

theorem stuck_cases {s : Sys} (hF : ForkInv s) (hW : WgInv s) {i : Nat} {p : Philosopher}
    (hp : s.philosophers[i]? = some p) (hstuck : ∀ s', step s i ≠ .ok s') :
    p.loc = Loc.returned ∨
    (p.loc = Loc.pickup0 ∧ step s i = .blocked ∧
      ∃ (j : Nat) (q : Philosopher), s.philosophers[j]? = some q ∧ q.has p.forks.1 = true) ∨
    (p.loc = Loc.pickup1 ∧ step s i = .blocked ∧
      ∃ (j : Nat) (q : Philosopher), s.philosophers[j]? = some q ∧ q.has p.forks.2 = true) := by
  obtain ⟨hr1, hr2⟩ := hF.inRange i p hp
  have hlock := fun f hf hpf => has_locked hF hp (f := f) hf hpf
  have hwg := fun hr => wg_pos hW hp hr
  unfold step at hstuck ⊢
  rcases p with ⟨nm, st, ⟨a, b⟩, l⟩
  simp only [hp] at hstuck ⊢
  simp only at hr1 hr2
  cases l <;> simp only [] at hstuck ⊢
  case returned => simp
  case pickup0 => simpa using pickup_stuck hF hr1 hstuck
  case pickup1 => simpa using pickup_stuck hF hr2 hstuck
  case putdown0 =>
    obtain ⟨fk, hfk, hmu⟩ := hlock a hr1 (by simp [Philosopher.has, Philosopher.hasFirst])
    obtain ⟨s', hs'⟩ := putdownStep_locked i
      ⟨nm, st, (a, b), Loc.putdown0⟩ Loc.putdown1 hfk hmu
    exact (hstuck s' hs').elim
  case putdown1 =>
    obtain ⟨fk, hfk, hmu⟩ := hlock b hr2 (by simp [Philosopher.has, Philosopher.hasSecond])
    obtain ⟨s', hs'⟩ := putdownStep_locked i
      ⟨nm, st, (a, b), Loc.putdown1⟩ Loc.setFinished hfk hmu
    exact (hstuck s' hs').elim
  case head =>
    have hw : s.wg ≠ 0 := hwg (by simp)
    cases st
    · exact (hstuck _ rfl).elim
    · exact (hstuck _ rfl).elim
    · simp only [hw, if_false] at hstuck
      exact (hstuck _ rfl).elim
  all_goals exact (hstuck _ rfl).elim

theorem has_of_stuck {q : Philosopher} {f : Nat}
    (hq : q.loc = Loc.returned ∨ q.loc = Loc.pickup0 ∨ q.loc = Loc.pickup1)
    (hf : q.has f = true) : q.loc = Loc.pickup1 ∧ q.forks.1 = f := by
  rcases q with ⟨nm, st, ⟨a, b⟩, l⟩
  rcases hq with hq | hq | hq <;> simp only at hq <;> subst hq <;>
    simp [Philosopher.has, Philosopher.hasFirst, Philosopher.hasSecond] at hf ⊢
  exact hf

theorem run_alone (s : Sys) (i : Nat) (p : Philosopher) (fa fb : Fork)
    (hp : s.philosophers[i]? = some p)
    (hstate : p.state = State.Thinking) (hloc : p.loc = Loc.head)
    (ha : s.forks[p.forks.1]? = some fa) (hb : s.forks[p.forks.2]? = some fb)
    (hfa : fa.mu = false) (hfb : fb.mu = false) (hab : p.forks.1 ≠ p.forks.2)
    (hwg : s.wg ≠ 0) :
    run s (List.replicate 9 i) = some
      { forks := s.forks
        philosophers := s.philosophers.set i { p with state := .Finished, loc := .returned }
        wg := s.wg - 1
        out := s.out ++ fullScript i p.forks } := by
  obtain ⟨hi, hpi⟩ := List.getElem?_eq_some.mp hp
  obtain ⟨hal, hai⟩ := List.getElem?_eq_some.mp ha
  obtain ⟨hbl, hbi⟩ := List.getElem?_eq_some.mp hb
  rcases p with ⟨nm, st, ⟨a, b⟩, l⟩
  simp only at hstate hloc hab ha hb hal hbl hai hbi
  subst hstate hloc
  simp [List.replicate, run, step, pickupStep, putdownStep, Fork.pickup, Fork.putdown,
    hp, ha, hb, hfa, hfb, hi, hal, hbl, hai, hbi, hab, Ne.symm hab, fullScript, hwg]
  rcases fa with ⟨na, ma⟩
  rcases fb with ⟨nb, mb⟩
  simp only at hfa hfb
  subst hfa hfb
  apply List.ext_getElem?
  intro j
  simp only [List.getElem?_set, List.length_set]
  by_cases hbj : b = j
  · subst hbj
    simp [hbl, hb]
  · by_cases haj : a = j
    · subst haj
      simp [hbj, hal, ha]
    · simp [hbj, haj]

/-! ## The claims -/

/-- C1 fails on the code: after every philosopher of `main` has printed its
"is thinking" line and picked up the first fork of its pair, no philosopher is
`Finished`, every goroutine waits in its second `pickup`, and no step is
enabled: the run hangs. -/
theorem c1_deadlock_reachable :
    ∃ s, run mainSys [0, 1, 2, 3, 4, 0, 1, 2, 3, 4] = some s ∧
      (∀ p ∈ s.philosophers, p.state = State.Thinking) ∧
      allFinished s = false ∧
      (∀ i, i < 5 → step s i = Outcome.blocked) ∧
      canStep s = false ∧
      ∀ (i : Nat) (s' : Sys), step s i ≠ Outcome.ok s' := by
  refine ⟨_, rfl, by decide, by decide, by decide, by decide, ?_⟩
  intro i s'
  by_cases hi : i < 5
  · have : ∀ j, j < 5 → ∀ t, step
        (Option.get (run mainSys [0, 1, 2, 3, 4, 0, 1, 2, 3, 4]) rfl) j ≠ Outcome.ok t := by
      intro j hj t
      interval_cases j <;> exact fun h => Outcome.noConfusion h
    exact this i hi s'
  · intro h
    obtain ⟨p, hp, -⟩ := step_ok h
    have := (List.getElem?_eq_some.mp hp).1
    exact hi this

/-- C2: in every state that the five philosophers of `main` can reach, a fork
is held by at most one philosopher. -/
theorem c2_mutual_exclusion (sched : List Nat) (s : Sys)
    (h : run mainSys sched = some s) (f i j : Nat)
    (hi : holds s i f = true) (hj : holds s j f = true) : i = j := by
  have hL := main_logInv h
  have hF := main_forkInv h
  by_cases hil : i < s.philosophers.length
  · by_cases hjl : j < s.philosophers.length
    · obtain ⟨p, hp⟩ : ∃ p, s.philosophers[i]? = some p := ⟨_, List.getElem?_eq_getElem hil⟩
      obtain ⟨q, hq⟩ : ∃ q, s.philosophers[j]? = some q := ⟨_, List.getElem?_eq_getElem hjl⟩
      rw [holds_eq_has hL hp] at hi
      rw [holds_eq_has hL hq] at hj
      exact hF.unique i j p q f hp hq hi hj
    · rw [holds_absent hL (Nat.le_of_not_lt hjl)] at hj
      exact (Bool.false_ne_true hj).elim
  · rw [holds_absent hL (Nat.le_of_not_lt hil)] at hi
    exact (Bool.false_ne_true hi).elim

/-- Witness for C2: once Guadalupe has picked up fork 0, Carolina, who shares
it, does not hold it. -/
theorem c2_mutual_exclusion_witness :
    ∃ s, run mainSys [1, 1] = some s ∧ holds s 1 0 = true ∧ holds s 0 0 = false := by
  refine ⟨_, rfl, by decide, ?_⟩
  cases h0 : holds (Option.get (run mainSys [1, 1]) rfl) 0 0 with
  | false => rfl
  | true =>
    exact absurd
      (c2_mutual_exclusion [1, 1] _ rfl 0 0 1 h0 (by decide)) (by decide)

/-- C3 as stated fails at the granularity of single actions: after its first
`pickup` Carolina holds fork 4 while her state field is still `Thinking`, and
after her first `putdown` she holds only one fork while her state field is
still `Eating`. -/
theorem c3_counterexample :
    (∃ s p, run mainSys [0, 0] = some s ∧ s.philosophers[0]? = some p ∧
      p.state = State.Thinking ∧ holds s 0 p.forks.1 = true) ∧
    (∃ s p, run mainSys [0, 0, 0, 0, 0, 0] = some s ∧ s.philosophers[0]? = some p ∧
      p.state = State.Eating ∧ holds s 0 p.forks.1 = false) :=
  ⟨⟨_, _, rfl, rfl, rfl, by decide⟩, ⟨_, _, rfl, rfl, rfl, by decide⟩⟩

/-- C3, amended: in every reachable state a `Finished` philosopher holds no
fork; an `Eating` philosopher that has not yet put a fork down (it is at the
head of the loop or about to put down its first fork) holds both of its forks;
a `Thinking` philosopher that has not yet picked a fork up (it is at the head
of the loop or about to pick up its first fork) holds no fork. -/
theorem c3_actor_holding (sched : List Nat) (s : Sys) (h : run mainSys sched = some s)
    (i : Nat) (p : Philosopher) (hp : s.philosophers[i]? = some p) :
    (p.state = State.Finished → ∀ f, holds s i f = false) ∧
    (p.state = State.Eating → p.loc = Loc.head ∨ p.loc = Loc.putdown0 →
      holds s i p.forks.1 = true ∧ holds s i p.forks.2 = true) ∧
    (p.state = State.Thinking → p.loc = Loc.head ∨ p.loc = Loc.pickup0 →
      ∀ f, holds s i f = false) := by
  have hL := main_logInv h
  have hv := hL.valid i p hp
  have hh := holds_eq_has hL hp
  rcases p with ⟨nm, st, ⟨a, b⟩, l⟩
  simp only [hh]
  refine ⟨?_, ?_, ?_⟩
  · rintro rfl f
    cases l <;> simp_all [Philosopher.valid, Philosopher.has, Philosopher.hasFirst,
      Philosopher.hasSecond]
  · rintro rfl (rfl | rfl) <;>
      simp [Philosopher.has, Philosopher.hasFirst, Philosopher.hasSecond]
  · rintro rfl (rfl | rfl) f <;>
      simp [Philosopher.has, Philosopher.hasFirst, Philosopher.hasSecond]

/-- Witness for C3 (amended): Carolina, `Eating` at the head of the loop, holds
forks 4 and 0. -/
theorem c3_actor_holding_witness :
    ∃ s p, run mainSys [0, 0, 0, 0] = some s ∧ s.philosophers[0]? = some p ∧
      p.state = State.Eating ∧ p.loc = Loc.head ∧
      holds s 0 p.forks.1 = true ∧ holds s 0 p.forks.2 = true :=
  ⟨_, _, rfl, rfl, rfl, rfl,
    (c3_actor_holding [0, 0, 0, 0] _ rfl 0 _ rfl).2.1 rfl (Or.inl rfl)⟩

/-- C4: take any program state in which philosopher `i` is `Thinking` at the
start of `cycle`, and any execution from it, the other goroutines interleaved
at will (every action of the schedule is executed, so no `pickup` that
philosopher `i` attempts is blocked).  Then `cycle` takes at most nine
actions, and the values taken by the state field are always an initial part
of `Thinking`, `Eating`, `Finished`.  As long as the philosopher has taken
fewer than nine actions it has not returned, it can only be made to wait in
one of its two `pickup`s, and in a freshly launched program its next action
never crashes.  Once it has taken nine actions, `cycle` has returned: the
state field has taken exactly the values `Thinking`, `Eating`, `Finished`,
each once, the `switch` was evaluated exactly three times and read these
three values, and the status lines are "is thinking", "is eating",
"is full".  And such an execution exists whenever its two forks are two
different unlocked forks and the counter is not zero: the philosopher run on
its own returns with any fuel of at least ten. -/
theorem c4_lifecycle (s0 : Sys) (i : Nat) (p : Philosopher)
    (hp : s0.philosophers[i]? = some p)
    (hstate : p.state = State.Thinking) (hloc : p.loc = Loc.head)
    (sched : List Nat) (t : Sys) (h : run s0 sched = some t) :
    sched.count i ≤ 9 ∧
    ((stateValues i s0 sched).destutter (· ≠ ·) = [State.Thinking] ∨
      (stateValues i s0 sched).destutter (· ≠ ·) = [State.Thinking, State.Eating] ∨
      (stateValues i s0 sched).destutter (· ≠ ·) =
        [State.Thinking, State.Eating, State.Finished]) ∧
    (sched.count i < 9 →
      (t.philosophers[i]?).map Philosopher.loc ≠ some Loc.returned ∧
      step t i ≠ Outcome.exited ∧
      (step t i = Outcome.blocked →
        (t.philosophers[i]?).map Philosopher.loc = some Loc.pickup0 ∨
        (t.philosophers[i]?).map Philosopher.loc = some Loc.pickup1) ∧
      (Fresh s0 → step t i ≠ Outcome.fatal)) ∧
    (sched.count i = 9 →
      (t.philosophers[i]?).map Philosopher.state = some State.Finished ∧
      (t.philosophers[i]?).map Philosopher.loc = some Loc.returned ∧
      step t i = Outcome.exited ∧
      (stateValues i s0 sched).destutter (· ≠ ·) =
        [State.Thinking, State.Eating, State.Finished] ∧
      switchReads i s0 sched = [State.Thinking, State.Eating, State.Finished] ∧
      statusLines t i =
        statusLines s0 i ++ [Event.thinking i, Event.eating i, Event.full i]) ∧
    (∀ fa fb : Fork, s0.forks[p.forks.1]? = some fa → s0.forks[p.forks.2]? = some fb →
      fa.mu = false → fb.mu = false → p.forks.1 ≠ p.forks.2 → s0.wg ≠ 0 →
      ∃ u, run s0 (List.replicate 9 i) = some u ∧
        ∀ fuel, 10 ≤ fuel →
          cycle fuel s0 i = some (u, [State.Thinking, State.Eating, State.Finished])) := by
  have hv : p.valid = true := by simp [Philosopher.valid, hloc]
  have hph : p.phase = 0 := by simp [Philosopher.phase, hloc, hstate]
  obtain ⟨q, hq, hqv, hqp, hqs, hqr, hql⟩ := lifecycle_run i sched s0 t p hp hv h
  rw [hph] at hqs hqr hql
  rw [hph, Nat.zero_add] at hqp
  have hk : sched.count i ≤ 9 := hqp ▸ phase_le q
  obtain ⟨tl, htl⟩ := stateValues_head hp sched
  have hdes : (stateValues i s0 sched).destutter (· ≠ ·) =
      List.destutter' (· ≠ ·) State.Thinking (orbit 0 (sched.count i)) := by
    rw [← hqs State.Thinking, htl, hstate, List.destutter_cons', List.destutter'_cons,
      if_neg (fun hne => hne rfl)]
  refine ⟨hk, ?_, ?_, ?_, ?_⟩
  · rw [hdes]
    generalize sched.count i = k at hk
    interval_cases k <;> decide
  · intro hlt
    have hnr : q.loc ≠ Loc.returned := by
      intro hret
      have := (phase_returned q).mpr hret
      omega
    refine ⟨by simp [hq, hnr], fun hex => hnr (step_exited hq hex), ?_, ?_⟩
    · intro hb
      rcases step_blocked hq hb with hl | hl
      · exact Or.inl (by simp [hq, hl])
      · exact Or.inr (by simp [hq, hl])
    · intro hfresh
      exact fresh_step_ne_fatal hfresh h i
  · intro h9
    rw [h9] at hqp hqr hql
    have hret : q.loc = Loc.returned := (phase_returned q).mp hqp
    have hfin : q.state = State.Finished := by
      rw [state_of_phase q hqv, hqp]
      rfl
    refine ⟨by simp [hq, hfin], by simp [hq, hret], ?_, ?_, ?_, ?_⟩
    · unfold step
      simp [hq, hret]
    · rw [hdes, h9]
      decide
    · rw [hqr]
      rfl
    · rw [hql]
      simp [statuses, statusAt]
  · intro fa fb ha hb hfa hfb hab hwg
    refine ⟨_, run_alone s0 i p fa fb hp hstate hloc ha hb hfa hfb hab hwg, ?_⟩
    intro fuel hfuel
    obtain ⟨k, rfl⟩ : ∃ k, fuel = k + 10 := ⟨fuel - 10, by omega⟩
    exact cycle_alone s0 i p fa fb k hp hstate hloc ha hb hfa hfb hab hwg

/-- Witness for C4: Guadalupe takes fork 0 first, Carolina starts and takes
fork 4, Guadalupe finishes and frees fork 0, then Carolina completes her
`cycle` without ever having been blocked. -/
theorem c4_lifecycle_witness :
    ∃ t, run mainSys [1, 1, 0, 0, 1, 1, 1, 1, 1, 1, 1, 0, 0, 0, 0, 0, 0, 0] = some t ∧
      List.count 0 [1, 1, 0, 0, 1, 1, 1, 1, 1, 1, 1, 0, 0, 0, 0, 0, 0, 0] = 9 ∧
      (t.philosophers[0]?).map Philosopher.state = some State.Finished ∧
      (t.philosophers[0]?).map Philosopher.loc = some Loc.returned ∧
      step t 0 = Outcome.exited ∧
      (stateValues 0 mainSys
          [1, 1, 0, 0, 1, 1, 1, 1, 1, 1, 1, 0, 0, 0, 0, 0, 0, 0]).destutter (· ≠ ·) =
        [State.Thinking, State.Eating, State.Finished] ∧
      switchReads 0 mainSys [1, 1, 0, 0, 1, 1, 1, 1, 1, 1, 1, 0, 0, 0, 0, 0, 0, 0] =
        [State.Thinking, State.Eating, State.Finished] ∧
      statusLines t 0 =
        statusLines mainSys 0 ++ [Event.thinking 0, Event.eating 0, Event.full 0] :=
  ⟨_, rfl, rfl,
    (c4_lifecycle mainSys 0 (newPhilosopher "Carolina" 4 0) rfl rfl rfl
      [1, 1, 0, 0, 1, 1, 1, 1, 1, 1, 1, 0, 0, 0, 0, 0, 0, 0] _ rfl).2.2.2.1 rfl⟩

/-- C5: in any program state built from fresh philosophers (all `Thinking`, at
the start of `cycle`, nothing printed yet) and under any interleaving, once
philosopher `i` with fork pair `(f0, f1)` has completed its `cycle` (its state
field is `Finished`, in particular once `cycle` has returned), the fork
operations it performed are exactly pickup `f0`, pickup `f1`, putdown `f0`,
putdown `f1`, where `(f0, f1)` is the pair it was created with. -/
theorem c5_fork_operations (s0 : Sys)
    (hfresh : ∀ p ∈ s0.philosophers, p.loc = Loc.head ∧ p.state = State.Thinking)
    (hout : s0.out = []) (sched : List Nat) (s : Sys) (h : run s0 sched = some s)
    (i : Nat) (p : Philosopher) (hp : s.philosophers[i]? = some p)
    (hdone : p.loc = Loc.returned ∨ p.state = State.Finished) :
    (s0.philosophers[i]?).map Philosopher.forks = some p.forks ∧
    forkOps s i = [Event.pickedUp i p.forks.1, Event.pickedUp i p.forks.2,
      Event.putDown i p.forks.1, Event.putDown i p.forks.2] := by
  have hL : LogInv s := logInv_run (logInv_init hfresh hout) h
  have hfin : p.state = State.Finished := by
    rcases hdone with hl | hf
    · have hv := hL.valid i p hp
      simpa [Philosopher.valid, hl] using hv
    · exact hf
  obtain ⟨p0, hp0, hforks, -⟩ := static_lookup h hp
  exact ⟨by simp [hp0, hforks], finished_forkOps hL hp hfin⟩

/-- Witness for C5: Carolina's `cycle` run to its end from the initial state
of `main`. -/
theorem c5_fork_operations_witness :
    ∃ s, run mainSys [0, 0, 0, 0, 0, 0, 0, 0, 0] = some s ∧
      (mainSys.philosophers[0]?).map Philosopher.forks = some (4, 0) ∧
      forkOps s 0 = [Event.pickedUp 0 4, Event.pickedUp 0 0,
        Event.putDown 0 4, Event.putDown 0 0] :=
  ⟨_, rfl, c5_fork_operations mainSys (by decide) rfl [0, 0, 0, 0, 0, 0, 0, 0, 0] _ rfl 0
    { name := "Carolina", state := .Finished, forks := (4, 0), loc := .returned } rfl
    (Or.inl rfl)⟩

/-- C6 as stated fails: philosopher 0 of the `philosophers` slice (Carolina)
does not have fork 1, and philosopher 4 (Lean) picks up fork 3 and then
fork 4, not fork 4 and then fork 0. -/
theorem c6_counterexample :
    assignedTo mainSys 0 1 = false ∧
    (mainSys.philosophers[0]?).map Philosopher.forks = some (4, 0) ∧
    (mainSys.philosophers[4]?).map Philosopher.forks = some (3, 4) ∧
    (run mainSys [4, 4, 4]).map Sys.out =
      some [Event.thinking 4, Event.pickedUp 4 3, Event.pickedUp 4 4] := by
  decide

/-- C6, amended: philosopher `i` of the `philosophers` slice has forks
`(i + 4) mod 5` and `i`, and picks up `(i + 4) mod 5` first and `i` second; so
philosophers 1..4 pick up forks `i - 1` then `i`, and philosopher 0 picks up
fork 4 then fork 0. -/
theorem c6_assignment :
    mainSys.philosophers.map Philosopher.forks =
      (List.range 5).map (fun i => ((i + 4) % 5, i)) ∧
    ∀ i ∈ List.range 5, (run mainSys [i, i, i]).map Sys.out =
      some [Event.thinking i, Event.pickedUp i ((i + 4) % 5), Event.pickedUp i i] := by
  decide

/-- C7: the five forks of `main` have pairwise distinct labels, the two forks
of every philosopher are distinct forks of the slice, and every fork is in the
`forks` array of exactly two of the five philosophers. -/
theorem c7_ring_coverage :
    (mainSys.forks.map Fork.fnum).Nodup ∧
    mainSys.forks.length = 5 ∧ mainSys.philosophers.length = 5 ∧
    (∀ p ∈ mainSys.philosophers,
      p.forks.1 ≠ p.forks.2 ∧ p.forks.1 < 5 ∧ p.forks.2 < 5) ∧
    ∀ f ∈ List.range 5,
      ((List.range 5).filter (fun i => assignedTo mainSys i f)).length = 2 := by
  decide

/-- C8: in every execution of the five philosophers of `main`, no action is
ever a fatal error (so `Unlock` is never called on an unlocked mutex), and
whenever philosopher `i` performs `putdown` on fork `f`, it holds `f` and the
mutex of `f` is locked just before, and unlocked just after. -/
theorem c8_release_only_by_holder (sched : List Nat) (s : Sys)
    (h : run mainSys sched = some s) (i : Nat) :
    step s i ≠ Outcome.fatal ∧
    ∀ (s' : Sys) (f : Nat), step s i = Outcome.ok s' →
      s'.out = s.out ++ [Event.putDown i f] →
      holds s i f = true ∧ locked s f = true ∧ locked s' f = false := by
  have hL := main_logInv h
  have hF := main_forkInv h
  refine ⟨step_ne_fatal hF (main_wgInv h) i, ?_⟩
  intro s' f hst hout
  obtain ⟨p, hp, -, -, hout', hfs⟩ := step_ok hst
  rw [hout'] at hout
  obtain ⟨htouch, hhas⟩ := emit_putDown (List.append_cancel_left hout)
  rw [htouch] at hfs
  obtain ⟨fk, hfk, hmu, hfs'⟩ := hfs
  refine ⟨(holds_eq_has hL hp f).trans hhas, ?_, ?_⟩
  · simpa [locked, hfk] using hmu
  · have hlt : f < s.forks.length := (List.getElem?_eq_some.mp hfk).1
    simp [locked, hfs', hlt]

/-- Witness for C8: Carolina about to put down fork 4. -/
theorem c8_release_only_by_holder_witness :
    ∃ s s', run mainSys [0, 0, 0, 0, 0] = some s ∧ step s 0 = Outcome.ok s' ∧
      s'.out = s.out ++ [Event.putDown 0 4] ∧ step s 0 ≠ Outcome.fatal ∧
      holds s 0 4 = true ∧ locked s 4 = true ∧ locked s' 4 = false :=
  ⟨_, _, rfl, rfl, rfl, (c8_release_only_by_holder [0, 0, 0, 0, 0] _ rfl 0).1,
    (c8_release_only_by_holder [0, 0, 0, 0, 0] _ rfl 0).2 _ 4 rfl rfl⟩

/-- C9: in every execution of the five philosophers of `main` that reaches a
state where all are `Finished`, there have been exactly 10 pickups and 10
putdowns, every fork has been picked up exactly twice and put down exactly
twice, and each philosopher that has a fork in its pair has picked it up once
and put it down once. -/
theorem c9_event_counts (sched : List Nat) (s : Sys) (h : run mainSys sched = some s)
    (hfin : allFinished s = true) :
    s.out.countP Event.isPickup = 10 ∧ s.out.countP Event.isPutdown = 10 ∧
    ∀ f, f < 5 →
      s.out.countP (fun e => e.isPickup && e.onFork f) = 2 ∧
      s.out.countP (fun e => e.isPutdown && e.onFork f) = 2 ∧
      ∀ i, assignedTo mainSys i f = true →
        s.out.count (Event.pickedUp i f) = 1 ∧ s.out.count (Event.putDown i f) = 1 := by
  have h0 := main_finished_log h hfin (show 0 < 5 by decide)
  have h1 := main_finished_log h hfin (show 1 < 5 by decide)
  have h2 := main_finished_log h hfin (show 2 < 5 by decide)
  have h3 := main_finished_log h hfin (show 3 < 5 by decide)
  have h4 := main_finished_log h hfin (show 4 < 5 by decide)
  refine ⟨?_, ?_, ?_⟩
  · rw [main_countP h]
    simp only [Finset.sum_range_succ, Finset.sum_range_zero]
    rcases h0 with h0 | h0 <;> rcases h1 with h1 | h1 <;> rcases h2 with h2 | h2 <;>
      rcases h3 with h3 | h3 <;> rcases h4 with h4 | h4 <;>
      rw [h0, h1, h2, h3, h4] <;> rfl
  · rw [main_countP h]
    simp only [Finset.sum_range_succ, Finset.sum_range_zero]
    rcases h0 with h0 | h0 <;> rcases h1 with h1 | h1 <;> rcases h2 with h2 | h2 <;>
      rcases h3 with h3 | h3 <;> rcases h4 with h4 | h4 <;>
      rw [h0, h1, h2, h3, h4] <;> rfl
  · intro f hf
    have hc : ∀ (e : Event) (i : Nat), e.owner = some i →
        s.out.count e = (s.out.filter (ownedBy i)).count e := fun e i he =>
      (List.count_filter (by simp [ownedBy, he])).symm
    refine ⟨?_, ?_, ?_⟩
    · rw [main_countP h]
      simp only [Finset.sum_range_succ, Finset.sum_range_zero]
      rcases h0 with h0 | h0 <;> rcases h1 with h1 | h1 <;> rcases h2 with h2 | h2 <;>
        rcases h3 with h3 | h3 <;> rcases h4 with h4 | h4 <;>
        rw [h0, h1, h2, h3, h4] <;> interval_cases f <;> rfl
    · rw [main_countP h]
      simp only [Finset.sum_range_succ, Finset.sum_range_zero]
      rcases h0 with h0 | h0 <;> rcases h1 with h1 | h1 <;> rcases h2 with h2 | h2 <;>
        rcases h3 with h3 | h3 <;> rcases h4 with h4 | h4 <;>
        rw [h0, h1, h2, h3, h4] <;> interval_cases f <;> rfl
    · intro i hi
      have hi5 : i < 5 := by
        by_contra hge
        have hnone : mainSys.philosophers[i]? = none :=
          List.getElem?_eq_none (by
            have : mainSys.philosophers.length = 5 := rfl
            omega)
        simp [assignedTo, hnone] at hi
      rw [hc (Event.pickedUp i f) i rfl, hc (Event.putDown i f) i rfl]
      interval_cases i
      · rcases h0 with h0 | h0 <;> rw [h0] <;> interval_cases f <;>
          first | exact absurd hi (by decide) | exact ⟨rfl, rfl⟩
      · rcases h1 with h1 | h1 <;> rw [h1] <;> interval_cases f <;>
          first | exact absurd hi (by decide) | exact ⟨rfl, rfl⟩
      · rcases h2 with h2 | h2 <;> rw [h2] <;> interval_cases f <;>
          first | exact absurd hi (by decide) | exact ⟨rfl, rfl⟩
      · rcases h3 with h3 | h3 <;> rw [h3] <;> interval_cases f <;>
          first | exact absurd hi (by decide) | exact ⟨rfl, rfl⟩
      · rcases h4 with h4 | h4 <;> rw [h4] <;> interval_cases f <;>
          first | exact absurd hi (by decide) | exact ⟨rfl, rfl⟩

/-- Witness for C9: the five philosophers run one after another, each to the
end of its `cycle`. -/
theorem c9_event_counts_witness :
    ∃ s, run mainSys sequentialSchedule = some s ∧ allFinished s = true ∧
      s.out.countP Event.isPickup = 10 ∧ s.out.countP Event.isPutdown = 10 :=
  ⟨_, rfl, rfl,
    (c9_event_counts sequentialSchedule _ rfl rfl).1,
    (c9_event_counts sequentialSchedule _ rfl rfl).2.1⟩

/-- C10: in every reachable state of the five philosophers of `main`, a
philosopher whose state field is `Finished` holds no fork, and in every
continuation of the run it stays `Finished` and performs no further fork
operation; and when all philosophers are `Finished`, every mutex is
unlocked. -/
theorem c10_finished_terminal (sched : List Nat) (s : Sys)
    (h : run mainSys sched = some s) :
    (∀ (i : Nat) (p : Philosopher), s.philosophers[i]? = some p →
      p.state = State.Finished →
      (∀ f, holds s i f = false) ∧
      ∀ (more : List Nat) (t : Sys), run s more = some t →
        (t.philosophers[i]?).map Philosopher.state = some State.Finished ∧
        forkOps t i = forkOps s i ∧ ∀ f, holds t i f = false) ∧
    (allFinished s = true → ∀ fk ∈ s.forks, fk.mu = false) := by
  have hL := main_logInv h
  have hF := main_forkInv h
  refine ⟨?_, ?_⟩
  · intro i p hp hfin
    refine ⟨fun f => (holds_eq_has hL hp f).trans (finished_has (hL.valid i p hp) hfin f), ?_⟩
    intro more t hrun
    have hLt : LogInv t := logInv_run hL hrun
    obtain ⟨q, hq, hqf, hqk⟩ := finished_stays_run hL hp hfin hrun
    refine ⟨by simp [hq, hqf], ?_, ?_⟩
    · rw [finished_forkOps hLt hq hqf, finished_forkOps hL hp hfin, hqk]
    · exact fun f => (holds_eq_has hLt hq f).trans (finished_has (hLt.valid i q hq) hqf f)
  · intro hall fk hfk
    obtain ⟨f, hf⟩ := List.getElem?_of_mem hfk
    cases hmu : fk.mu with
    | false => rfl
    | true =>
      obtain ⟨i, p, hp, hpf⟩ := (hF.lockedIff f fk hf).mp hmu
      have hpfin : p.state = State.Finished := by
        have := List.all_eq_true.mp hall p (List.getElem?_mem hp)
        simpa using this
      rw [finished_has (hL.valid i p hp) hpfin f] at hpf
      exact (Bool.false_ne_true hpf).elim

/-- Witness for C10: Carolina has finished; Guadalupe then takes two actions. -/
theorem c10_finished_terminal_witness :
    ∃ s t, run mainSys [0, 0, 0, 0, 0, 0, 0, 0] = some s ∧ run s [1, 1] = some t ∧
      (s.philosophers[0]?).map Philosopher.state = some State.Finished ∧
      holds s 0 4 = false ∧
      (t.philosophers[0]?).map Philosopher.state = some State.Finished ∧
      forkOps t 0 = forkOps s 0 :=
  ⟨_, _, rfl, rfl, rfl,
    ((c10_finished_terminal [0, 0, 0, 0, 0, 0, 0, 0] _ rfl).1 0 _ rfl rfl).1 4,
    (((c10_finished_terminal [0, 0, 0, 0, 0, 0, 0, 0] _ rfl).1 0 _ rfl rfl).2
      [1, 1] _ rfl).1,
    (((c10_finished_terminal [0, 0, 0, 0, 0, 0, 0, 0] _ rfl).1 0 _ rfl rfl).2
      [1, 1] _ rfl).2.1⟩

/-- C11: with the five forks of `main` and five actors of which actor `i`
(the wrap-around one included) takes fork `i` first and fork `(i + 1) mod 5`
second, the state in which every actor has taken its first fork and none its
second is reachable from the initial state, and it is deadlocked: no actor is
`Finished`, every actor waits in its second `pickup`, and no step is
enabled. -/
theorem c11_negative_control :
    ascendingSys.philosophers.map Philosopher.forks =
      (List.range 5).map (fun i => (i, (i + 1) % 5)) ∧
    (∀ p ∈ ascendingSys.philosophers, p.state = State.Thinking ∧ p.loc = Loc.head) ∧
    (∀ fk ∈ ascendingSys.forks, fk.mu = false) ∧ ascendingSys.out = [] ∧
    ∃ s, run ascendingSys [0, 1, 2, 3, 4, 0, 1, 2, 3, 4] = some s ∧
      (∀ i ∈ List.range 5, holds s i i = true ∧ holds s i ((i + 1) % 5) = false) ∧
      (∀ p ∈ s.philosophers, p.state ≠ State.Finished) ∧
      (∀ i ∈ List.range 5, step s i = Outcome.blocked) ∧
      canStep s = false ∧
      ∀ (i : Nat) (s' : Sys), step s i ≠ Outcome.ok s' := by
  refine ⟨by decide, by decide, by decide, rfl, _, rfl, by decide, by decide, by decide,
    by decide, ?_⟩
  intro i s'
  by_cases hi : i < 5
  · have : ∀ j, j < 5 → ∀ t, step
        (Option.get (run ascendingSys [0, 1, 2, 3, 4, 0, 1, 2, 3, 4]) rfl) j ≠
          Outcome.ok t := by
      intro j hj t
      interval_cases j <;> exact fun h => Outcome.noConfusion h
    exact this i hi s'
  · intro h
    obtain ⟨p, hp, -⟩ := step_ok h
    have := (List.getElem?_eq_some.mp hp).1
    exact hi this

/-- C12: for the assignment built by `main`, a reachable state without an
enabled step is either the state where all five philosophers are `Finished`
(and have returned) and every mutex is unlocked, or the state where every
philosopher is still `Thinking`, holds the first fork of its pair and no
other, and waits in the `pickup` of the second. -/
theorem c12_stuck_states (sched : List Nat) (s : Sys) (h : run mainSys sched = some s)
    (hstuck : canStep s = false) :
    (allFinished s = true ∧ (∀ p ∈ s.philosophers, p.loc = Loc.returned) ∧
      ∀ fk ∈ s.forks, fk.mu = false) ∨
    (∀ (i : Nat) (p : Philosopher), s.philosophers[i]? = some p →
      p.state = State.Thinking ∧ p.loc = Loc.pickup1 ∧
      holds s i p.forks.1 = true ∧ (∀ f, f ≠ p.forks.1 → holds s i f = false) ∧
      step s i = Outcome.blocked) := by
  have hL := main_logInv h
  have hF := main_forkInv h
  have hlen : s.philosophers.length = 5 := (run_length h).1
  have hcase := fun (i : Nat) (p : Philosopher) (hp : s.philosophers[i]? = some p) =>
    stuck_cases hF (main_wgInv h) hp (canStep_false hstuck i)
  have hthree : ∀ (j : Nat) (q : Philosopher), s.philosophers[j]? = some q →
      q.loc = Loc.returned ∨ q.loc = Loc.pickup0 ∨ q.loc = Loc.pickup1 := by
    intro j q hq
    rcases hcase j q hq with h1 | ⟨h1, -⟩ | ⟨h1, -⟩
    · exact Or.inl h1
    · exact Or.inr (Or.inl h1)
    · exact Or.inr (Or.inr h1)
  have hforks : ∀ (i : Nat) (p : Philosopher), s.philosophers[i]? = some p →
      i < 5 ∧ p.forks = ((i + 4) % 5, i) := by
    intro i p hp
    have hi : i < 5 := hlen ▸ (List.getElem?_eq_some.mp hp).1
    obtain ⟨p', hp', hf'⟩ := main_lookup h hi
    rw [hp] at hp'
    cases hp'
    exact ⟨hi, hf'⟩
  have hholder : ∀ (f j : Nat) (q : Philosopher), s.philosophers[j]? = some q →
      q.has f = true → q.loc = Loc.pickup1 ∧ (j + 4) % 5 = f ∧ j < 5 := by
    intro f j q hq hqf
    obtain ⟨hl, hfirst⟩ := has_of_stuck (hthree j q hq) hqf
    obtain ⟨hj, hfk⟩ := hforks j q hq
    rw [hfk] at hfirst
    exact ⟨hl, hfirst, hj⟩
  have hno0 : ∀ (i : Nat) (p : Philosopher), s.philosophers[i]? = some p →
      p.loc ≠ Loc.pickup0 := by
    intro i p hp hl
    rcases hcase i p hp with h1 | ⟨-, -, j, q, hq, hqf⟩ | ⟨h1, -⟩
    · rw [hl] at h1
      exact Loc.noConfusion h1
    · obtain ⟨hql, hjf, hj⟩ := hholder _ j q hq hqf
      obtain ⟨hi, hfk⟩ := hforks i p hp
      rw [hfk] at hjf
      have hji : j = i := by
        simp only at hjf
        omega
      subst hji
      rw [hp] at hq
      cases hq
      rw [hl] at hql
      exact Loc.noConfusion hql
    · rw [hl] at h1
      exact Loc.noConfusion h1
  have hnext : ∀ (i : Nat) (p : Philosopher), s.philosophers[i]? = some p →
      p.loc = Loc.pickup1 →
      ∃ q, s.philosophers[(i + 1) % 5]? = some q ∧ q.loc = Loc.pickup1 := by
    intro i p hp hl
    rcases hcase i p hp with h1 | ⟨h1, -⟩ | ⟨-, -, j, q, hq, hqf⟩
    · rw [hl] at h1
      exact Loc.noConfusion h1
    · rw [hl] at h1
      exact Loc.noConfusion h1
    · obtain ⟨hql, hjf, hj⟩ := hholder _ j q hq hqf
      obtain ⟨hi, hfk⟩ := hforks i p hp
      rw [hfk] at hjf
      have hji : j = (i + 1) % 5 := by
        simp only at hjf
        omega
      subst hji
      exact ⟨q, hq, hql⟩
  by_cases hex : ∃ (i : Nat) (p : Philosopher),
      s.philosophers[i]? = some p ∧ p.loc = Loc.pickup1
  · right
    obtain ⟨i0, p0, hp0, hl0⟩ := hex
    have hi0 : i0 < 5 := (hforks i0 p0 hp0).1
    have hall : ∀ m : Nat, ∃ q, s.philosophers[(i0 + m) % 5]? = some q ∧
        q.loc = Loc.pickup1 := by
      intro m
      induction m with
      | zero =>
        have : (i0 + 0) % 5 = i0 := by omega
        rw [this]
        exact ⟨p0, hp0, hl0⟩
      | succ m ih =>
        obtain ⟨q, hq, hql⟩ := ih
        obtain ⟨r, hr, hrl⟩ := hnext _ q hq hql
        have : ((i0 + m) % 5 + 1) % 5 = (i0 + (m + 1)) % 5 := by omega
        rw [this] at hr
        exact ⟨r, hr, hrl⟩
    intro i p hp
    obtain ⟨hi, hfk⟩ := hforks i p hp
    have hl : p.loc = Loc.pickup1 := by
      obtain ⟨q, hq, hql⟩ := hall ((i + 5 - i0) % 5)
      have : (i0 + (i + 5 - i0) % 5) % 5 = i := by omega
      rw [this, hp] at hq
      cases hq
      exact hql
    have hv := hL.valid i p hp
    have hblocked : step s i = Outcome.blocked := by
      rcases hcase i p hp with h1 | ⟨h1, -⟩ | ⟨-, h1, -⟩
      · rw [hl] at h1
        exact Loc.noConfusion h1
      · rw [hl] at h1
        exact Loc.noConfusion h1
      · exact h1
    have hd := hF.distinct i p hp
    refine ⟨?_, hl, ?_, ?_, hblocked⟩
    · simpa [Philosopher.valid, hl] using hv
    · rw [holds_eq_has hL hp]
      simp [Philosopher.has, Philosopher.hasFirst, hl]
    · intro f hf
      rw [holds_eq_has hL hp]
      simp [Philosopher.has, Philosopher.hasFirst, Philosopher.hasSecond, hl, Ne.symm hf]
  · left
    have hret : ∀ (i : Nat) (p : Philosopher), s.philosophers[i]? = some p →
        p.loc = Loc.returned := by
      intro i p hp
      rcases hthree i p hp with h1 | h1 | h1
      · exact h1
      · exact (hno0 i p hp h1).elim
      · exact (hex ⟨i, p, hp, h1⟩).elim
    have hfinished : ∀ (i : Nat) (p : Philosopher), s.philosophers[i]? = some p →
        p.state = State.Finished := by
      intro i p hp
      have hv := hL.valid i p hp
      simpa [Philosopher.valid, hret i p hp] using hv
    refine ⟨?_, ?_, ?_⟩
    · rw [allFinished, List.all_eq_true]
      intro p hmem
      obtain ⟨i, hp⟩ := List.getElem?_of_mem hmem
      simp [hfinished i p hp]
    · intro p hmem
      obtain ⟨i, hp⟩ := List.getElem?_of_mem hmem
      exact hret i p hp
    · intro fk hfk
      obtain ⟨f, hf⟩ := List.getElem?_of_mem hfk
      cases hmu : fk.mu with
      | false => rfl
      | true =>
        obtain ⟨i, p, hp, hpf⟩ := (hF.lockedIff f fk hf).mp hmu
        rw [finished_has (hL.valid i p hp) (hfinished i p hp) f] at hpf
        exact (Bool.false_ne_true hpf).elim

/-- Witness for C12: the state in which every philosopher of `main` has taken
its first fork has no enabled step and is not all-`Finished`, so it is the
second kind of state. -/
theorem c12_stuck_states_witness :
    ∃ s, run mainSys [0, 1, 2, 3, 4, 0, 1, 2, 3, 4] = some s ∧ canStep s = false ∧
      allFinished s = false ∧
      ∀ (i : Nat) (p : Philosopher), s.philosophers[i]? = some p →
        p.state = State.Thinking ∧ p.loc = Loc.pickup1 ∧
        holds s i p.forks.1 = true ∧ (∀ f, f ≠ p.forks.1 → holds s i f = false) ∧
        step s i = Outcome.blocked :=
  ⟨_, rfl, rfl, rfl,
    (c12_stuck_states [0, 1, 2, 3, 4, 0, 1, 2, 3, 4] _ rfl rfl).resolve_left
      (fun hleft => absurd hleft.1 (by decide))⟩

/-- C13: running the five philosophers of `main` one after another, each for
the nine actions of its `cycle` (which is what `cycle` run to completion on
each in turn produces), is a valid execution; it ends with all five
philosophers `Finished` and returned, all five mutexes unlocked and the
`WaitGroup` counter at zero, so `wg.Wait` returns and the last line is
printed. -/
theorem c13_completing_run :
    ∃ s s', run mainSys sequentialSchedule = some s ∧
      allFinished s = true ∧
      (∀ p ∈ s.philosophers, p.loc = Loc.returned) ∧
      (∀ fk ∈ s.forks, fk.mu = false) ∧ s.forks.length = 5 ∧ s.philosophers.length = 5 ∧
      s.wg = 0 ∧ canStep s = false ∧
      mainFinish s = some s' ∧ s'.out = s.out ++ [Event.allFull] ∧
      (((((cycle 10 mainSys 0).bind (fun r => cycle 10 r.1 1)).bind
          (fun r => cycle 10 r.1 2)).bind (fun r => cycle 10 r.1 3)).bind
          (fun r => cycle 10 r.1 4)).map Prod.fst = some s := by
  refine ⟨_, _, rfl, by decide, by decide, by decide, rfl, rfl, rfl, by decide, rfl, rfl, ?_⟩
  rfl

end Philosophers
